import Mathlib

/-!
Verification of the mind-map outline parser and layout engine.

The repository contains two independent implementations of the
parse-and-layout pipeline:

* scheme 1 — the stack-based `parseMarkdown` in `src/utils/markdownParser.ts`
  (lines 14-50), returning `MindMapNode` records with `id`, `label`,
  `position {x, y}` and `children`;
* scheme 2 — the `lastNodeAtLevel`-based `parseMarkdown` defined inside the
  React component in the same file (lines 84-182), returning `NodeDataType`
  records that additionally carry `color` and an optional `edgeLabel`.

Both are embedded below.  JavaScript strings are modelled as `List Char`
(`Str`), JavaScript numbers appearing in positions as `Int`, and the
possibly-`NaN` vertical coordinates of scheme 2 as `Option Int` where `none`
models `NaN`.  Fallible evaluation (the `TypeError` scheme 1 raises on an
input with no non-blank lines) is modelled with `Option`.  All functions are
computable and structurally recursive (recursion that is not structural in
the source is driven by an explicit fuel argument that is provably
sufficient), so concrete inputs evaluate by `rfl`/`decide`.
-/

namespace MindMap

/-- JavaScript strings are modelled as lists of characters. -/
abbrev Str := List Char

/-- The whitespace class used by `trim` and `\s` in the source's regexes
(space, tab, CR, LF; the exotic JS whitespace code points are out of scope
of the inputs considered here). -/
def isWs (c : Char) : Bool := c == ' ' || c == '\t' || c == '\n' || c == '\r'

/-- Line terminators, which `.` in a JavaScript regex never matches. -/
def isTerm (c : Char) : Bool := c == '\n' || c == '\r'

/-- Model of `s.trim()`: remove leading and trailing whitespace. -/
def trimChars (s : Str) : Str :=
  ((s.dropWhile isWs).reverse.dropWhile isWs).reverse

/-- Model of `s.split('\n')`. -/
def splitLines : Str → List Str
  | [] => [[]]
  | c :: rest =>
    match splitLines rest with
    | [] => [[c]]
    | h :: t => if c = '\n' then [] :: h :: t else (c :: h) :: t

/-- Model of `(line.match(/^#+/) || [''])[0].length`: the number of leading `#`
characters (0 when the line is not a heading). -/
def countHashes (l : Str) : Nat := (l.takeWhile (fun c => c == '#')).length

/-- Model of `line.replace(/^#+\s*/, '')`: strip a leading run of `#` and the
whitespace immediately following it; a line with no leading `#` is
unchanged. -/
def stripHeading (l : Str) : Str :=
  match l with
  | '#' :: _ => (l.dropWhile (fun c => c == '#')).dropWhile isWs
  | _ => l

/-! ## Scheme 1: the stack-based parser of `src/utils/markdownParser.ts` -/

/-- Source: `interface MarkdownNode { level; content; children }`. -/
inductive MarkdownNode where
  | mk (level : Int) (content : Str) (children : List MarkdownNode)

def MarkdownNode.level : MarkdownNode → Int
  | .mk l _ _ => l

def MarkdownNode.content : MarkdownNode → Str
  | .mk _ c _ => c

def MarkdownNode.children : MarkdownNode → List MarkdownNode
  | .mk _ _ cs => cs

/-- A stack entry of scheme 1.  In the source every stack cell holds a
reference to a `MarkdownNode` whose `children` array is still being mutated;
here each open node is a frame holding its already-completed children, and a
node is materialised (and appended to its parent's children) when its frame
is popped.  Push order of the source equals append order here. -/
structure Frame where
  level : Int
  content : Str
  children : List MarkdownNode

def Frame.toNode (f : Frame) : MarkdownNode := .mk f.level f.content f.children

/-- Popping frame `f` appends its finished node to the children of the frame
below it (`stack[stack.length - 1].children.push(node)` happened at push
time in the source; the zipper realises it at pop time, preserving order). -/
def closeInto (f g : Frame) : Frame :=
  { g with children := g.children ++ [f.toNode] }

/-- Model of `while (stack.length > 1 && stack[stack.length - 1].level >= level) stack.pop()`.
The head of the list is the top of the stack.  The fuel argument (the stack
length suffices) only drives termination: each iteration shortens the
stack. -/
def popFramesF : Nat → List Frame → Int → List Frame
  | 0, s, _ => s
  | fuel + 1, f :: g :: rest, level =>
    if f.level ≥ level then popFramesF fuel (closeInto f g :: rest) level
    else f :: g :: rest
  | _ + 1, s, _ => s

/-- One iteration of `lines.forEach(...)` in scheme 1: compute the level and
content, pop closed ancestors, attach and push the new node. -/
def step1 (stack : List Frame) (line : Str) : List Frame :=
  let level : Int := Int.ofNat (countHashes line)
  let content := trimChars (stripHeading line)
  ⟨level, content, []⟩ :: popFramesF stack.length stack level

/-- Source: `const root = { level: -1, content: 'Root', children: [] }`. -/
def rootFrame : Frame := ⟨-1, "Root".data, []⟩

/-- Close every remaining frame at end of input, yielding the virtual root
frame with the completed forest as its children. -/
def collapseF : Nat → List Frame → Frame
  | _, [] => rootFrame
  | _, [f] => f
  | 0, f :: _ :: _ => f
  | fuel + 1, f :: g :: rest => collapseF fuel (closeInto f g :: rest)

/-- Source: `markdown.split('\n').filter(line => line.trim())`, the lines
scheme 1 iterates over. -/
def nonblankLines (md : Str) : List Str :=
  (splitLines md).filter (fun l => !(trimChars l).isEmpty)

/-- The virtual root node after the `lines.forEach` loop of scheme 1. -/
def buildRoot (md : Str) : MarkdownNode :=
  let final := (nonblankLines md).foldl step1 [rootFrame]
  (collapseF final.length final).toNode

/-- Source: `export interface MindMapNode { id; label; position: {x, y}; children }`
(scheme 1 output; `position` is flattened to the two fields `x`, `y`). -/
inductive MMNode where
  | mk (id : Str) (label : Str) (x : Int) (y : Int) (children : List MMNode)

def MMNode.id : MMNode → Str
  | .mk i _ _ _ _ => i

def MMNode.label : MMNode → Str
  | .mk _ l _ _ _ => l

def MMNode.x : MMNode → Int
  | .mk _ _ x _ _ => x

def MMNode.y : MMNode → Int
  | .mk _ _ _ y _ => y

def MMNode.children : MMNode → List MMNode
  | .mk _ _ _ _ cs => cs

/-- Decimal digits rendered as characters (for `${level}` and `${index}`
in the template literal `node-${level}-${index}`). -/
def digitChar (d : Nat) : Char :=
  match d with
  | 0 => '0' | 1 => '1' | 2 => '2' | 3 => '3' | 4 => '4'
  | 5 => '5' | 6 => '6' | 7 => '7' | 8 => '8' | 9 => '9'
  | _ => '*'

/-- Decimal rendering, least significant digit first; the fuel (the number
itself suffices) only drives termination. -/
def decAux : Nat → Nat → Str
  | 0, _ => []
  | _, 0 => []
  | fuel + 1, n + 1 => digitChar ((n + 1) % 10) :: decAux fuel ((n + 1) / 10)

/-- JavaScript decimal rendering of a natural number. -/
def decimal (n : Nat) : Str :=
  if n = 0 then ['0'] else (decAux n n).reverse

/-- Source: `` `node-${level}-${index}` ``. -/
def mkId (level index : Nat) : Str :=
  "node-".data ++ decimal level ++ '-' :: decimal index

/- Model of `convertToMindMap(node, level = 0, index = 0)` with
`xSpacing = 200`, `ySpacing = 100`:
`{ id: node-level-index, label: node.content,
   position: { x: level * 200, y: index * 100 },
   children: node.children.map((child, idx) => convert(child, level+1, idx)) }`. -/
mutual

def convNode : MarkdownNode → Nat → Nat → MMNode
  | .mk _ content cs, level, index =>
    .mk (mkId level index) content (Int.ofNat (level * 200)) (Int.ofNat (index * 100))
      (convChildren cs (level + 1) 0)

def convChildren : List MarkdownNode → Nat → Nat → List MMNode
  | [], _, _ => []
  | c :: rest, level, idx => convNode c level idx :: convChildren rest level (idx + 1)

end

/-- Scheme 1 entry point.  Source: `return convertToMindMap(root.children[0])`:
when `root.children` is empty (no non-blank line in the input),
`root.children[0]` is `undefined` and `convertToMindMap` dereferences it
(`node.content`), raising a `TypeError`; this failure is modelled as
`none`. -/
def parseMarkdown1 (md : Str) : Option MMNode :=
  match (buildRoot md).children with
  | [] => none
  | c :: _ => some (convNode c 0 0)


/-! ## Scheme 2: the `lastNodeAtLevel`-based parser inside the React component

The source mutates a shared object graph (`root`, `lastNodeAtLevel`,
`parent.children.push(node)`).  Here the nodes live in an append-only arena
(`List Node2`, in creation order); a node records the arena index of its
parent (`none` for the root and for orphans), and a parent's `children`
array is recovered as the ascending list of indices whose `parent` field
points at it — which is exactly push order, since each node is pushed into
its parent's array once, at creation. -/

/-- Hex digit class of the color regex `\[(#[A-Fa-f0-9]{6})\]` (the
character class itself covers both cases). -/
def isHexDigit (c : Char) : Bool :=
  ('0' ≤ c && c ≤ '9') || ('a' ≤ c && c ≤ 'f') || ('A' ≤ c && c ≤ 'F')

/-- Attempt to match `\[(#[A-Fa-f0-9]{6})\]` at the head of the string,
returning the captured group (with the `#`). -/
def matchColorAt : Str → Option Str
  | '[' :: '#' :: a :: b :: c :: d :: e :: f :: ']' :: _ =>
    if isHexDigit a && isHexDigit b && isHexDigit c &&
       isHexDigit d && isHexDigit e && isHexDigit f
    then some ('#' :: a :: b :: c :: d :: e :: f :: []) else none
  | _ => none

/-- Model of `line.match(/\[(#[A-Fa-f0-9]{6})\]/)`: the capture of the
leftmost match (the engine advances the start position one character at a
time). -/
def findColor : Str → Option Str
  | [] => none
  | c :: rest =>
    match matchColorAt (c :: rest) with
    | some col => some col
    | none => findColor rest

/-- Check that the rest of the line after a candidate `(` is `group ++ ")"`
with `)` the final character and no line terminator inside the group, and
return the group — the only way `\((.*?)\)$` can complete from that start. -/
def edgeBody : Str → Option Str
  | [] => none
  | [c] => if c = ')' then some [] else none
  | c :: rest => if isTerm c then none else (edgeBody rest).map (c :: ·)

/-- Model of `line.match(/\((.*?)\)$/)`: the capture of the leftmost match.
A match must start at a `(` and end at a final `)`; the lazy group is
forced by the `$` anchor to span everything in between. -/
def findEdge : Str → Option Str
  | [] => none
  | '(' :: rest =>
    (match edgeBody rest with
     | some g => some g
     | none => findEdge rest)
  | _ :: rest => findEdge rest

/-- Scan for the first `]` (the lazy `.*?` inside `\[.*?\]`), failing on a
line terminator, and return the remainder of the string after it. -/
def afterBracketClose : Str → Option Str
  | [] => none
  | ']' :: rest => some rest
  | c :: rest => if isTerm c then none else afterBracketClose rest

/-- Attempt to match `\s*\[.*?\]` starting exactly here: the greedy `\s*`
must take the whole whitespace run (a shorter run would leave a whitespace
character where `\[` is required), then `[`, then lazily to the first `]`.
Returns the remainder after the match. -/
def matchBracketAt (l : Str) : Option Str :=
  match l.dropWhile isWs with
  | '[' :: body => afterBracketClose body
  | _ => none

/-- Model of `line.replace(/\s*\[.*?\]/g, '')` (fuel: the string length
suffices, every match consumes at least two characters). -/
def stripBracketsF : Nat → Str → Str
  | 0, _ => []
  | _ + 1, [] => []
  | fuel + 1, c :: rest =>
    match matchBracketAt (c :: rest) with
    | some after => stripBracketsF fuel after
    | none => c :: stripBracketsF fuel rest

def stripBrackets (l : Str) : Str := stripBracketsF l.length l

/-- Check that `body` (everything after a candidate `(`) is a
terminator-free group followed by a final `)`. -/
def checkParenBody : Str → Bool
  | [] => false
  | [c] => c = ')'
  | c :: rest => !isTerm c && checkParenBody rest

/-- Does a match of `\s*\(.*?\)$` start exactly at the head? (Greedy `\s*`
must take the whole whitespace run, then `(`, then the `$`-pinned group.) -/
def trailMatchAt (l : Str) : Bool :=
  match l.dropWhile isWs with
  | '(' :: body => checkParenBody body
  | _ => false

/-- Model of `line.replace(/\s*\(.*?\)$/g, '')`: the leftmost (and, being
`$`-anchored, only) match runs to the end of the string, so everything from
the match start on is removed. -/
def stripTrailParen : Str → Str
  | [] => []
  | c :: rest => if trailMatchAt (c :: rest) then [] else c :: stripTrailParen rest

/-- Result record of `parseLine` (scheme 2): label, color, optional edge
label. -/
structure ParsedLine where
  label : Str
  color : Str
  edgeLabel : Option Str

/-- Source: `'#212529'`, the default color. -/
def defaultColor : Str := "#212529".data

/-- Model of scheme 2's `parseLine`: extract color and edge label, then
derive the label by stripping bracket groups, the trailing parenthesised
annotation, the heading marker, and surrounding whitespace — in the
source's order. -/
def parseLine (line : Str) : ParsedLine :=
  { color := (findColor line).getD defaultColor
    edgeLabel := findEdge line
    label := trimChars (stripHeading (stripTrailParen (stripBrackets line))) }

/- Mutual recursion for `label.replace(/\s+/g, '-')`: each maximal
whitespace run collapses to a single `-`. -/
mutual

def collapseWs : Str → Str
  | [] => []
  | c :: rest => if isWs c then '-' :: skipWs rest else c :: collapseWs rest

def skipWs : Str → Str
  | [] => []
  | c :: rest => if isWs c then skipWs rest else c :: collapseWs rest

end

/-- Model of `label.toLowerCase().replace(/\s+/g, '-')`, the id of a
scheme 2 node. -/
def normalizeId (l : Str) : Str := collapseWs (l.map Char.toLower)

/-- Output unit of scheme 2 (source: `interface NodeDataType`), as an arena
entry: `position` is flattened to `x`/`y` (with `none` modelling `NaN`),
and the `children` array is replaced by the `parent` back-index (see the
section comment). -/
structure Node2 where
  id : Str
  label : Str
  color : Str
  edgeLabel : Option Str
  x : Int
  y : Option Int
  parent : Option Nat

/-- Model of `parent?.position.y - ySpacing` (`undefined`/`NaN` propagate). -/
def jsub : Option Int → Int → Option Int
  | none, _ => none
  | some a, b => some (a - b)

/-- Model of `startY + childIndex * ySpacing` (`undefined`/`NaN` propagate). -/
def jadd : Option Int → Int → Option Int
  | none, _ => none
  | some a, b => some (a + b)

/-- Model of `parent.children.length` at creation time: the number of nodes
already created whose `parent` field is `p`. -/
def countParent (arena : List Node2) (p : Nat) : Nat :=
  arena.countP (fun n => n.parent == some p)

/-- Mutable state of the second pass: the arena (all nodes created so far,
in creation order), `root`, and `lastNodeAtLevel` as a function from level
to arena index. -/
structure S2 where
  arena : List Node2
  root : Option Nat
  lastAt : Nat → Option Nat

def lookupAssoc (m : List (Str × Nat)) (k : Str) : Option Nat :=
  match m.find? (fun e => e.1 == k) with
  | some e => some e.2
  | none => none

/-- Model of `childCountByParent[k] = (childCountByParent[k] || 0) + 1`
(newer binding shadows the older one). -/
def bump (m : List (Str × Nat)) (k : Str) : List (Str × Nat) :=
  (k, (lookupAssoc m k).getD 0 + 1) :: m

/-- First pass of scheme 2.  At this point `lastNodeAtLevel` is still the
empty object, so the template `${lastNodeAtLevel[parentLevel]?.label}`
always interpolates the string `"undefined"`; the resulting counts are keyed
by `'#'.repeat(parentLevel) + "-undefined"`. -/
def firstPass (lines : List Str) : List (Str × Nat) :=
  lines.foldl
    (fun m line =>
      let level := countHashes line
      if level = 0 then m
      else
        let parentLevel := level - 1
        if parentLevel > 0 then
          bump m (List.replicate parentLevel '#' ++ '-' :: "undefined".data)
        else m)
    []

/-- One iteration of the second pass of scheme 2 (`xSpacing = 250`,
`ySpacing = 80`).  `totalChildren`/`totalHeight` are computed as in the
source but `totalHeight` is never read afterwards (dead code in the
source). -/
def step2 (ccbp : List (Str × Nat)) (s : S2) (line : Str) : S2 :=
  let level := countHashes line
  if level = 0 then s
  else
    let pl := parseLine line
    let id := normalizeId pl.label
    let newIdx := s.arena.length
    if level = 1 then
      let node : Node2 :=
        ⟨id, pl.label, pl.color, pl.edgeLabel, Int.ofNat (level * 250), some 160, none⟩
      { arena := s.arena ++ [node], root := some newIdx
        lastAt := fun L => if L = 1 then some newIdx else s.lastAt L }
    else
      let parentLevel := level - 1
      let parent := s.lastAt parentLevel
      let parentKey := List.replicate parentLevel '#' ++ '-' ::
        (match parent with
         | some p =>
           match s.arena[p]? with
           | some pn => pn.label
           | none => "undefined".data
         | none => "undefined".data)
      let totalChildren := (lookupAssoc ccbp parentKey).getD 1
      let _totalHeight := (Int.ofNat totalChildren - 1) * 80
      let childIndex :=
        match parent with
        | some p => countParent s.arena p
        | none => 0
      let parentY : Option Int :=
        match parent with
        | some p =>
          match s.arena[p]? with
          | some pn => pn.y
          | none => none
        | none => none
      let y := if childIndex = 0 then jsub parentY 80
               else jadd parentY (80 * Int.ofNat childIndex)
      let node : Node2 :=
        ⟨id, pl.label, pl.color, pl.edgeLabel, Int.ofNat (level * 250), y, parent⟩
      { arena := s.arena ++ [node], root := s.root
        lastAt := fun L => if L = level then some newIdx else s.lastAt L }

/-- Source: `markdown.trim().split('\n')`, the lines scheme 2 iterates
over (both passes). -/
def linesOf2 (md : Str) : List Str := splitLines (trimChars md)

/-- The final state of scheme 2 on an input: both passes over
`markdown.trim().split('\n')`. -/
def runScheme2 (md : Str) : S2 :=
  (linesOf2 md).foldl (step2 (firstPass (linesOf2 md))) ⟨[], none, fun _ => none⟩

/-- Output tree of scheme 2 (source: `NodeDataType` as returned), with
`position` flattened and `y = none` modelling `NaN`. -/
inductive Tree2 where
  | mk (id : Str) (label : Str) (color : Str) (edgeLabel : Option Str)
      (x : Int) (y : Option Int) (children : List Tree2)

def Tree2.id : Tree2 → Str
  | .mk i _ _ _ _ _ _ => i

def Tree2.label : Tree2 → Str
  | .mk _ l _ _ _ _ _ => l

def Tree2.color : Tree2 → Str
  | .mk _ _ c _ _ _ _ => c

def Tree2.edgeLabel : Tree2 → Option Str
  | .mk _ _ _ e _ _ _ => e

def Tree2.x : Tree2 → Int
  | .mk _ _ _ _ x _ _ => x

def Tree2.y : Tree2 → Option Int
  | .mk _ _ _ _ _ y _ => y

def Tree2.children : Tree2 → List Tree2
  | .mk _ _ _ _ _ _ cs => cs

/-- The children of arena node `i`, in creation (= push) order.  A node's
parent is always created before it (`lastNodeAtLevel` holds existing
nodes), so the `i < j` guard never excludes a real child; it makes the
recursion of `buildTree` visibly terminating. -/
def childIndices (arena : List Node2) (i : Nat) : List Nat :=
  (List.range arena.length).filter
    (fun j => i < j && (arena[j]?.map Node2.parent == some (some i)))

/-- Placeholder produced only when fuel runs out or an index is dangling;
never reached from `parseMarkdown2`. -/
def dummyTree : Tree2 := .mk [] [] [] none 0 none []

/-- Materialise the object graph rooted at arena index `i` (fuel: the arena
length suffices, since indices strictly increase along any child chain). -/
def buildTreeF : Nat → List Node2 → Nat → Tree2
  | 0, _, _ => dummyTree
  | fuel + 1, arena, i =>
    match arena[i]? with
    | none => dummyTree
    | some n =>
      .mk n.id n.label n.color n.edgeLabel n.x n.y
        ((childIndices arena i).map (buildTreeF fuel arena))

def buildTree (arena : List Node2) (i : Nat) : Tree2 :=
  buildTreeF arena.length arena i

/-- Source: the fallback
`{ id: 'nyc', label: 'NYC', color: '#4169e1', position: {x: 250, y: 250}, children: [] }`
returned when `root` was never assigned. -/
def fallback2 : Tree2 :=
  .mk "nyc".data "NYC".data "#4169e1".data none 250 (some 250) []

/-- Scheme 2 entry point: `return root || { ...fallback... }`. -/
def parseMarkdown2 (md : Str) : Tree2 :=
  let s := runScheme2 md
  match s.root with
  | some r => buildTree s.arena r
  | none => fallback2

/-! ## Generic helpers -/

/-- Fold-invariant principle for the main loops of both schemes. -/
theorem foldlInv {α β : Type} {P : β → Prop} (f : β → α → β) :
    ∀ (l : List α) (b : β), P b → (∀ b' a, a ∈ l → P b' → P (f b' a)) → P (l.foldl f b)
  | [], b, hb, _ => hb
  | a :: l, b, hb, hstep =>
    foldlInv f l (f b a) (hstep b a (List.mem_cons_self a l) hb)
      (fun b' a' ha' => hstep b' a' (List.mem_cons_of_mem a ha'))

/-- Membership at a given depth in a tree, parametrised by the children
projection: the root of `t` is at depth 0, and each child of a node at
depth `d` is at depth `d + 1`. -/
inductive AtDepth {α : Type} (ch : α → List α) (t : α) : Nat → α → Prop where
  | zero : AtDepth ch t 0 t
  | succ {d : Nat} {m c : α} : AtDepth ch t d m → c ∈ ch m → AtDepth ch t (d + 1) c

/-- Occurrence of a node in a scheme 1 output tree, recording its depth and
its sibling index: the root of `t` carries the externally supplied index
`j0` (scheme 1 calls `convertToMindMap` with index 0 at the root), and the
`k`-th child of any node has sibling index `k`. -/
inductive OccursAt (j0 : Nat) (t : MMNode) : Nat → Nat → MMNode → Prop where
  | here : OccursAt j0 t 0 j0 t
  | child {d j k : Nat} {c m : MMNode} :
      OccursAt j0 t d j c → c.children[k]? = some m → OccursAt j0 t (d + 1) k m

/-! ## Sizes for scheme 1 -/

mutual

def sizeMN : MarkdownNode → Nat
  | .mk _ _ cs => 1 + sizeML cs

def sizeML : List MarkdownNode → Nat
  | [] => 0
  | c :: rest => sizeMN c + sizeML rest

end

def frameSize (f : Frame) : Nat := 1 + sizeML f.children

def stackSize : List Frame → Nat
  | [] => 0
  | f :: rest => frameSize f + stackSize rest

theorem sizeML_append (a b : List MarkdownNode) :
    sizeML (a ++ b) = sizeML a + sizeML b := by
  induction a with
  | nil => simp [sizeML]
  | cons c rest ih => simp [sizeML, ih]; omega

theorem sizeMN_toNode (f : Frame) : sizeMN f.toNode = frameSize f := by
  cases f; rfl

theorem frameSize_closeInto (f g : Frame) :
    frameSize (closeInto f g) = frameSize f + frameSize g := by
  simp [frameSize, closeInto, sizeML_append, sizeML, sizeMN_toNode]
  omega

theorem stackSize_popFramesF (fuel : Nat) (s : List Frame) (L : Int) :
    stackSize (popFramesF fuel s L) = stackSize s := by
  induction fuel generalizing s with
  | zero => rfl
  | succ fuel ih =>
    match s with
    | [] => rfl
    | [f] => rfl
    | f :: g :: rest =>
      simp only [popFramesF]
      split
      · rw [ih]
        simp [stackSize, frameSize_closeInto]
        omega
      · rfl

theorem stackSize_step1 (s : List Frame) (line : Str) :
    stackSize (step1 s line) = 1 + stackSize s := by
  simp [step1, stackSize, frameSize, sizeML, stackSize_popFramesF]

theorem stackSize_foldl (lines : List Str) :
    ∀ s, stackSize (lines.foldl step1 s) = stackSize s + lines.length := by
  induction lines with
  | nil => simp
  | cons l rest ih =>
    intro s
    simp only [List.foldl_cons, List.length_cons, ih, stackSize_step1]
    omega

theorem collapseF_size (fuel : Nat) :
    ∀ s : List Frame, s ≠ [] → s.length ≤ fuel + 1 →
    frameSize (collapseF fuel s) = stackSize s := by
  induction fuel with
  | zero =>
    intro s hs hlen
    match s with
    | [f] => simp [collapseF, stackSize]
    | f :: g :: rest => simp at hlen
  | succ fuel ih =>
    intro s hs hlen
    match s with
    | [f] => simp [collapseF, stackSize]
    | f :: g :: rest =>
      show frameSize (collapseF fuel (closeInto f g :: rest)) = _
      rw [ih (closeInto f g :: rest) (by simp) (by simp at hlen ⊢; omega)]
      simp [stackSize, frameSize_closeInto]
      omega

theorem stackSize_final (md : Str) :
    stackSize ((nonblankLines md).foldl step1 [rootFrame]) = 1 + (nonblankLines md).length := by
  rw [stackSize_foldl]
  simp [stackSize, frameSize, rootFrame, sizeML]

theorem sizeMN_buildRoot (md : Str) :
    sizeMN (buildRoot md) = 1 + (nonblankLines md).length := by
  unfold buildRoot
  have hsz := stackSize_final md
  have hne : (nonblankLines md).foldl step1 [rootFrame] ≠ [] := by
    intro h
    rw [h] at hsz
    simp only [stackSize] at hsz
    omega
  rw [sizeMN_toNode, collapseF_size _ _ hne (by omega), hsz]

/-! ## Characterisation of the pop loop of scheme 1 -/

/-- Popping stops at the first frame (from the top) whose level is below
the incoming level: the frames above it are folded away, it keeps its level
and content (only its children grow), and everything below it is untouched.
With an empty popped prefix the stack is returned unchanged. -/
theorem popStop :
    ∀ (fuel : Nat) (s1 : List Frame) (g : Frame) (rest : List Frame) (L : Int),
    (∀ f ∈ s1, L ≤ f.level) → g.level < L → s1.length < fuel →
    ∃ ch, popFramesF fuel (s1 ++ g :: rest) L =
        ({ level := g.level, content := g.content, children := g.children ++ ch } : Frame) :: rest
      ∧ (s1 = [] → ch = []) := by
  intro fuel
  induction fuel with
  | zero =>
    intro s1 _ _ _ _ _ h
    omega
  | succ fuel ih =>
    intro s1 g rest L hs hg hlen
    match s1 with
    | [] =>
      refine ⟨[], ?_, fun _ => rfl⟩
      have hgr : ({ level := g.level, content := g.content, children := g.children ++ [] } : Frame) = g := by
        cases g; simp
      rw [hgr]
      match rest with
      | [] => rfl
      | r :: rs =>
        simp only [List.nil_append, popFramesF]
        rw [if_neg (by omega)]
    | f :: s1' =>
      have hf : L ≤ f.level := hs f (List.mem_cons_self f s1')
      match s1' with
      | [] =>
        simp only [List.cons_append, List.nil_append, popFramesF]
        rw [if_pos (by omega)]
        obtain ⟨ch, hch, hnil⟩ := ih [] (closeInto f g) rest L (by simp)
          (by simpa [closeInto] using hg) (by simp at hlen ⊢; omega)
        rw [List.nil_append] at hch
        rw [hch, hnil rfl]
        refine ⟨[f.toNode], ?_, fun h => absurd h (List.cons_ne_nil f [])⟩
        simp [closeInto]
      | f2 :: s1'' =>
        simp only [List.cons_append, popFramesF]
        rw [if_pos (by omega)]
        obtain ⟨ch, hch, _⟩ := ih (closeInto f f2 :: s1'') g rest L
          (by
            intro f' hf'
            rcases List.mem_cons.mp hf' with h | h
            · subst h
              simpa [closeInto] using hs f2 (List.mem_cons_of_mem f (List.mem_cons_self f2 s1''))
            · exact hs f' (List.mem_cons_of_mem f (List.mem_cons_of_mem f2 h)))
          hg (by simp at hlen ⊢; omega)
        rw [List.cons_append] at hch
        exact ⟨ch, hch, fun h => absurd h (List.cons_ne_nil f (f2 :: s1''))⟩

/-- Collapsing a stack folds everything above the bottom frame into exactly
one additional child of the bottom frame (none when the stack is the bottom
frame alone). -/
theorem collapseChain :
    ∀ (fuel : Nat) (s : List Frame) (g : Frame), s.length ≤ fuel →
    (s = [] → collapseF fuel (s ++ [g]) = g) ∧
    (s ≠ [] → ∃ nd, collapseF fuel (s ++ [g]) = { g with children := g.children ++ [nd] }) := by
  intro fuel
  induction fuel with
  | zero =>
    intro s g hlen
    match s with
    | [] => exact ⟨fun _ => rfl, fun h => absurd rfl h⟩
    | f :: s' => simp at hlen
  | succ fuel ih =>
    intro s g hlen
    match s with
    | [] => exact ⟨fun _ => rfl, fun h => absurd rfl h⟩
    | [f] =>
      refine ⟨fun h => absurd h (by simp), fun _ => ⟨f.toNode, ?_⟩⟩
      show collapseF (fuel + 1) [f, g] = _
      have : collapseF (fuel + 1) [f, g] = collapseF fuel [closeInto f g] := rfl
      rw [this]
      have h2 : collapseF fuel ([] ++ [closeInto f g]) = closeInto f g :=
        (ih [] (closeInto f g) (by simp)).1 rfl
      simp only [List.nil_append] at h2
      rw [h2]
      simp [closeInto]
    | f :: f2 :: s' =>
      refine ⟨fun h => absurd h (by simp), fun _ => ?_⟩
      have hstep : collapseF (fuel + 1) ((f :: f2 :: s') ++ [g]) =
          collapseF fuel ((closeInto f f2 :: s') ++ [g]) := rfl
      rw [hstep]
      exact (ih (closeInto f f2 :: s') g (by simp at hlen ⊢; omega)).2 (by simp)

/-! ## Lemmas about `convertToMindMap` (scheme 1) -/

mutual

def countMM : MMNode → Nat
  | .mk _ _ _ _ cs => 1 + countML cs

def countML : List MMNode → Nat
  | [] => 0
  | c :: rest => countMM c + countML rest

end

mutual

theorem conv_size : ∀ (c : MarkdownNode) (l i : Nat), countMM (convNode c l i) = sizeMN c
  | .mk lv ct cs, l, i => by
    show 1 + countML (convChildren cs (l + 1) 0) = 1 + sizeML cs
    rw [conv_size_list cs (l + 1) 0]

theorem conv_size_list : ∀ (cs : List MarkdownNode) (l i : Nat),
    countML (convChildren cs l i) = sizeML cs
  | [], _, _ => rfl
  | c :: rest, l, i => by
    show countMM (convNode c l i) + countML (convChildren rest l (i + 1)) = sizeMN c + sizeML rest
    rw [conv_size c l i, conv_size_list rest l (i + 1)]

end

theorem convNode_x (c : MarkdownNode) (l i : Nat) :
    (convNode c l i).x = Int.ofNat (l * 200) := by
  cases c; rfl

theorem convNode_y (c : MarkdownNode) (l i : Nat) :
    (convNode c l i).y = Int.ofNat (i * 100) := by
  cases c; rfl

theorem convNode_id (c : MarkdownNode) (l i : Nat) :
    (convNode c l i).id = mkId l i := by
  cases c; rfl

theorem convNode_children (lv : Int) (ct : Str) (cs : List MarkdownNode) (l i : Nat) :
    (convNode (.mk lv ct cs) l i).children = convChildren cs (l + 1) 0 := rfl

theorem convChildren_get : ∀ (cs : List MarkdownNode) (l i0 k : Nat),
    (convChildren cs l i0)[k]? = cs[k]?.map (fun c => convNode c l (i0 + k))
  | [], _, _, _ => by simp [convChildren]
  | c :: rest, l, i0, 0 => by simp [convChildren]
  | c :: rest, l, i0, k + 1 => by
    simp only [convChildren, List.getElem?_cons_succ]
    rw [convChildren_get rest l (i0 + 1) k]
    have h : i0 + 1 + k = i0 + (k + 1) := by omega
    rw [h]

theorem mem_convChildren : ∀ (cs : List MarkdownNode) (l i0 : Nat) (m : MMNode),
    m ∈ convChildren cs l i0 → ∃ c j, m = convNode c l j
  | [], _, _, _, h => absurd h (List.not_mem_nil _)
  | c :: rest, l, i0, m, h => by
    rcases List.mem_cons.mp h with h | h
    · exact ⟨c, i0, h⟩
    · exact mem_convChildren rest l (i0 + 1) m h

/-- Every node occurring at depth `d` with sibling index `j` in a converted
tree is itself the conversion of some subtree, at level `l0 + d` and index
`j`; in particular its `id` is `mkId (l0 + d) j`. -/
theorem occurs_conv {t0 : MarkdownNode} {l0 i0 : Nat} :
    ∀ {d j : Nat} {m : MMNode}, OccursAt i0 (convNode t0 l0 i0) d j m →
    ∃ c, m = convNode c (l0 + d) j := by
  intro d j m h
  induction h with
  | here => exact ⟨t0, by rw [Nat.add_zero]⟩
  | child hocc hget ih =>
    obtain ⟨c, hc⟩ := ih
    subst hc
    obtain ⟨lv, ct, cs⟩ := c
    rw [convNode_children, convChildren_get] at hget
    obtain ⟨c', hc', hm⟩ := Option.map_eq_some'.mp hget
    rw [Nat.zero_add] at hm
    exact ⟨c', hm.symm⟩

/-- Every node at depth `d` of a converted tree is the conversion of some
subtree at level `l0 + d`. -/
theorem atDepth_conv {t0 : MarkdownNode} {l0 i0 : Nat} :
    ∀ {d : Nat} {m : MMNode}, AtDepth MMNode.children (convNode t0 l0 i0) d m →
    ∃ c j, m = convNode c (l0 + d) j := by
  intro d m h
  induction h with
  | zero => exact ⟨t0, i0, by rw [Nat.add_zero]⟩
  | succ hd hmem ih =>
    obtain ⟨c, j, hc⟩ := ih
    subst hc
    obtain ⟨lv, ct, cs⟩ := c
    rw [convNode_children] at hmem
    obtain ⟨c', j', hc'⟩ := mem_convChildren _ _ _ _ hmem
    exact ⟨c', j', hc'⟩

/-! ## Injectivity of the `node-<level>-<index>` encoding -/

/-- Value of a least-significant-first digit string (verification device to
invert `decAux`). -/
def unDec : Str → Nat
  | [] => 0
  | c :: rest => (c.toNat - 48) + 10 * unDec rest

theorem digitChar_toNat (d : Nat) (hd : d < 10) : (digitChar d).toNat = 48 + d := by
  interval_cases d <;> decide

theorem unDec_decAux : ∀ (fuel n : Nat), n ≤ fuel → unDec (decAux fuel n) = n := by
  intro fuel
  induction fuel with
  | zero =>
    intro n h
    interval_cases n
    rfl
  | succ fuel ih =>
    intro n h
    match n with
    | 0 => rfl
    | n + 1 =>
      show unDec (digitChar ((n + 1) % 10) :: decAux fuel ((n + 1) / 10)) = n + 1
      have hdiv : (n + 1) / 10 < n + 1 := Nat.div_lt_self (Nat.succ_pos n) (by omega)
      simp only [unDec]
      rw [ih ((n + 1) / 10) (by omega), digitChar_toNat _ (Nat.mod_lt _ (by omega))]
      omega

/-- Recovering the value of a most-significant-first decimal string. -/
def decVal (s : Str) : Nat := unDec s.reverse

theorem decVal_decimal (n : Nat) : decVal (decimal n) = n := by
  by_cases h : n = 0
  · subst h; rfl
  · simp only [decimal, if_neg h, decVal, List.reverse_reverse]
    exact unDec_decAux n n le_rfl

theorem decimal_inj {m n : Nat} (h : decimal m = decimal n) : m = n := by
  have hm := decVal_decimal m
  rw [h, decVal_decimal] at hm
  omega

theorem decAux_ne_dash : ∀ (fuel n : Nat) (c : Char), c ∈ decAux fuel n → c ≠ '-' := by
  intro fuel
  induction fuel with
  | zero =>
    intro n c h
    simp [decAux] at h
  | succ fuel ih =>
    intro n c h
    match n with
    | 0 => simp [decAux] at h
    | n + 1 =>
      rcases List.mem_cons.mp h with h | h
      · subst h
        have h10 : (n + 1) % 10 < 10 := Nat.mod_lt _ (by omega)
        revert h10
        generalize (n + 1) % 10 = r
        intro h10
        interval_cases r <;> decide
      · exact ih ((n + 1) / 10) c h

theorem decimal_ne_dash (n : Nat) (c : Char) (h : c ∈ decimal n) : c ≠ '-' := by
  by_cases h0 : n = 0
  · subst h0
    simp [decimal] at h
    subst h
    decide
  · simp only [decimal, if_neg h0, List.mem_reverse] at h
    exact decAux_ne_dash n n c h

/-- Splitting at a separator character that occurs in neither prefix. -/
theorem append_sep_inj : ∀ (a : Str) {x : Char} (b c d : Str),
    x ∉ a → x ∉ c → a ++ x :: b = c ++ x :: d → a = c ∧ b = d := by
  intro a
  induction a with
  | nil =>
    intro x b c d _ hxc h
    match c with
    | [] => simpa using h
    | e :: c' =>
      simp only [List.nil_append, List.cons_append, List.cons.injEq] at h
      exact absurd (h.1 ▸ List.mem_cons_self e c') hxc
  | cons a0 a' ih =>
    intro x b c d hxa hxc h
    match c with
    | [] =>
      simp only [List.cons_append, List.nil_append, List.cons.injEq] at h
      exact absurd (h.1 ▸ List.mem_cons_self a0 a') (h.1 ▸ hxa)
    | e :: c' =>
      simp only [List.cons_append, List.cons.injEq] at h
      obtain ⟨rfl, h⟩ := h
      obtain ⟨h1, h2⟩ := ih b c' d (fun hm => hxa (List.mem_cons_of_mem _ hm))
        (fun hm => hxc (List.mem_cons_of_mem _ hm)) h
      exact ⟨by rw [h1], h2⟩

/-- The synthetic id encoding is injective: equal ids force equal depth and
equal sibling index. -/
theorem mkId_inj {d i e j : Nat} (h : mkId d i = mkId e j) : d = e ∧ i = j := by
  unfold mkId at h
  rw [List.append_assoc, List.append_assoc] at h
  have h1 := List.append_cancel_left h
  obtain ⟨hd, hi⟩ := append_sep_inj (decimal d) (decimal i) (decimal e) (decimal j)
    (fun hm => decimal_ne_dash d _ hm rfl) (fun hm => decimal_ne_dash e _ hm rfl) h1
  exact ⟨decimal_inj hd, decimal_inj hi⟩

/-! ## Reachability and invariants for the scheme 2 arena -/

/-- Reachability: arena index `j` lies in the tree rooted at `r` (parent
links lead all the way up to `r`). -/
inductive InTree (arena : List Node2) (r : Nat) : Nat → Prop where
  | root : InTree arena r r
  | child {j p : Nat} : arena[j]?.bind Node2.parent = some p →
      InTree arena r p → InTree arena r j

/-- Every parent index points strictly backwards in the arena (a parent is
created before its children). -/
def ParentLt (arena : List Node2) : Prop :=
  ∀ j p, arena[j]?.bind Node2.parent = some p → p < j

/-- Horizontal contract of the scheme 2 arena: a child sits exactly
`xSpacing = 250` units right of its parent. -/
def ParentX (arena : List Node2) : Prop :=
  ∀ (j p : Nat) (nj np : Node2), arena[j]? = some nj → nj.parent = some p → arena[p]? = some np →
    nj.x = np.x + 250

/-- Vertical contract of the scheme 2 arena: the node that was created as
the `k`-th child of `p` received `parent.y - 80` when `k = 0` and
`parent.y + 80 * k` otherwise. -/
def ParentY (arena : List Node2) : Prop :=
  ∀ (j p : Nat) (nj np : Node2), arena[j]? = some nj → nj.parent = some p → arena[p]? = some np →
    nj.y = if countParent (arena.take j) p = 0 then jsub np.y 80
           else jadd np.y (80 * Int.ofNat (countParent (arena.take j) p))

/-- Every arena node carries the fields `parseLine` extracted from some
heading line of the input. -/
def FieldsFrom (lines : List Str) (arena : List Node2) : Prop :=
  ∀ (j : Nat) (n : Node2), arena[j]? = some n → ∃ l, l ∈ lines ∧ 1 ≤ countHashes l ∧
    n.id = normalizeId (parseLine l).label ∧ n.label = (parseLine l).label ∧
    n.color = (parseLine l).color ∧ n.edgeLabel = (parseLine l).edgeLabel ∧
    n.x = Int.ofNat (countHashes l * 250)

/-- `lastNodeAtLevel` holds valid indices of nodes created at that level
(witnessed through their `x = level * 250`). -/
def LastAtInv (s : S2) : Prop :=
  ∀ (L j : Nat), s.lastAt L = some j →
    ∃ n, s.arena[j]? = some n ∧ n.x = Int.ofNat (L * 250) ∧ 1 ≤ L

/-- The recorded root is a level-1 node: no parent, `x = 250`, `y = 160`. -/
def RootInv (s : S2) : Prop :=
  ∀ (r : Nat), s.root = some r →
    ∃ n, s.arena[r]? = some n ∧ n.parent = none ∧ n.x = 250 ∧ n.y = some 160

/-- Invariant carried through the second pass of scheme 2. -/
structure Inv2 (lines : List Str) (s : S2) : Prop where
  plt : ParentLt s.arena
  px : ParentX s.arena
  py : ParentY s.arena
  fieldsOf : FieldsFrom lines s.arena
  lastOf : LastAtInv s
  rootOf : RootInv s

/-- The node record built by the second pass for a heading line (its `y`
and `parent` depend on the state). -/
def mkNode2 (line : Str) (y : Option Int) (parent : Option Nat) : Node2 :=
  ⟨normalizeId (parseLine line).label, (parseLine line).label, (parseLine line).color,
   (parseLine line).edgeLabel, Int.ofNat (countHashes line * 250), y, parent⟩

/-- `parent?.children?.length || 0` at creation time. -/
def childIdxOf (s : S2) : Option Nat → Nat
  | some p => countParent s.arena p
  | none => 0

/-- `parent?.position.y`. -/
def parentYOf (s : S2) : Option Nat → Option Int
  | some p =>
    match s.arena[p]? with
    | some pn => pn.y
    | none => none
  | none => none

/-- The vertical position computed for a non-root node. -/
def yOf (s : S2) (parent : Option Nat) : Option Int :=
  if childIdxOf s parent = 0 then jsub (parentYOf s parent) 80
  else jadd (parentYOf s parent) (80 * Int.ofNat (childIdxOf s parent))

theorem step2_zero (ccbp : List (Str × Nat)) (s : S2) (line : Str)
    (h : countHashes line = 0) : step2 ccbp s line = s := by
  simp [step2, h]

theorem step2_one (ccbp : List (Str × Nat)) (s : S2) (line : Str)
    (h : countHashes line = 1) :
    step2 ccbp s line =
      { arena := s.arena ++ [mkNode2 line (some 160) none]
        root := some s.arena.length
        lastAt := fun L => if L = 1 then some s.arena.length else s.lastAt L } := by
  simp [step2, h, mkNode2]

theorem step2_deep (ccbp : List (Str × Nat)) (s : S2) (line : Str)
    (h : 2 ≤ countHashes line) :
    step2 ccbp s line =
      { arena := s.arena ++
          [mkNode2 line (yOf s (s.lastAt (countHashes line - 1)))
            (s.lastAt (countHashes line - 1))]
        root := s.root
        lastAt := fun L => if L = countHashes line then some s.arena.length
                           else s.lastAt L } := by
  have h0 : ¬ countHashes line = 0 := by omega
  have h1 : ¬ countHashes line = 1 := by omega
  simp only [step2]
  rw [if_neg h0, if_neg h1]
  cases hp : s.lastAt (countHashes line - 1) with
  | none => simp [mkNode2, yOf, childIdxOf, parentYOf, hp]
  | some p =>
    cases hn : s.arena[p]? with
    | none => simp [mkNode2, yOf, childIdxOf, parentYOf, hp, hn]
    | some pn => simp [mkNode2, yOf, childIdxOf, parentYOf, hp, hn]

/-! ## Preservation of the arena invariants -/

theorem mem_arena_lt {α : Type} {l : List α} {j : Nat} {a : α} (h : l[j]? = some a) :
    j < l.length :=
  (List.getElem?_eq_some.mp h).1

theorem getElem?_append_old {arena : List Node2} {n : Node2} {j : Nat} {nd : Node2}
    (h : arena[j]? = some nd) : (arena ++ [n])[j]? = some nd := by
  rw [List.getElem?_append_left (mem_arena_lt h)]
  exact h

theorem getElem?_append_cases {arena : List Node2} {n : Node2} {j : Nat} {nd : Node2}
    (h : (arena ++ [n])[j]? = some nd) :
    (j < arena.length ∧ arena[j]? = some nd) ∨ (j = arena.length ∧ nd = n) := by
  have hj : j < arena.length + 1 := by simpa using mem_arena_lt h
  by_cases hlt : j < arena.length
  · exact Or.inl ⟨hlt, by rwa [List.getElem?_append_left hlt] at h⟩
  · have hje : j = arena.length := by omega
    subst hje
    rw [List.getElem?_concat_length] at h
    exact Or.inr ⟨rfl, (Option.some_inj.mp h).symm⟩

theorem take_append_old {arena : List Node2} {n : Node2} {j : Nat} (h : j ≤ arena.length) :
    (arena ++ [n]).take j = arena.take j :=
  List.take_append_of_le_length h

theorem bind_parent_elim {arena : List Node2} {j p : Nat}
    (h : arena[j]?.bind Node2.parent = some p) :
    ∃ nd, arena[j]? = some nd ∧ nd.parent = some p := by
  cases hj : arena[j]? with
  | none => rw [hj] at h; simp at h
  | some nd => rw [hj] at h; exact ⟨nd, rfl, h⟩

theorem inv2_step {lines : List Str} (ccbp : List (Str × Nat)) (s : S2) (line : Str)
    (hline : line ∈ lines) (inv : Inv2 lines s) : Inv2 lines (step2 ccbp s line) := by
  rcases Nat.lt_or_ge (countHashes line) 1 with h0 | h1
  · rw [step2_zero _ _ _ (by omega)]
    exact inv
  rcases Nat.lt_or_ge (countHashes line) 2 with h1' | h2
  -- level = 1
  · have hl1 : countHashes line = 1 := by omega
    rw [step2_one _ _ _ hl1]
    have hnodep : (mkNode2 line (some 160) none).parent = none := rfl
    refine ⟨?_, ?_, ?_, ?_, ?_, ?_⟩
    · intro j p hjp
      obtain ⟨nd, hj, hp⟩ := bind_parent_elim hjp
      rcases getElem?_append_cases hj with ⟨hlt, hold⟩ | ⟨hje, rfl⟩
      · exact inv.plt j p (by rw [hold]; exact hp)
      · rw [hnodep] at hp; cases hp
    · intro j p nj np hj hp hpn
      rcases getElem?_append_cases hj with ⟨hlt, hold⟩ | ⟨hje, rfl⟩
      · have hplt : p < j := inv.plt j p (by rw [hold]; simpa using hp)
        rw [List.getElem?_append_left (by omega)] at hpn
        exact inv.px j p nj np hold hp hpn
      · rw [hnodep] at hp; cases hp
    · intro j p nj np hj hp hpn
      rcases getElem?_append_cases hj with ⟨hlt, hold⟩ | ⟨hje, rfl⟩
      · have hplt : p < j := inv.plt j p (by rw [hold]; simpa using hp)
        rw [List.getElem?_append_left (by omega)] at hpn
        rw [take_append_old (by omega)]
        exact inv.py j p nj np hold hp hpn
      · rw [hnodep] at hp; cases hp
    · intro j n hj
      rcases getElem?_append_cases hj with ⟨hlt, hold⟩ | ⟨hje, rfl⟩
      · exact inv.fieldsOf j n hold
      · exact ⟨line, hline, by omega, rfl, rfl, rfl, rfl, rfl⟩
    · intro L j hL
      by_cases hL1 : L = 1
      · subst hL1
        simp only [if_pos rfl] at hL
        obtain rfl : j = s.arena.length := by simpa using hL.symm
        refine ⟨mkNode2 line (some 160) none, List.getElem?_concat_length _ _, ?_, le_rfl⟩
        show Int.ofNat (countHashes line * 250) = Int.ofNat (1 * 250)
        rw [hl1]
      · simp only [if_neg hL1] at hL
        obtain ⟨n, hn, hx, hge⟩ := inv.lastOf L j hL
        exact ⟨n, getElem?_append_old hn, hx, hge⟩
    · intro r hr
      obtain rfl : r = s.arena.length := by simpa using hr.symm
      refine ⟨mkNode2 line (some 160) none, List.getElem?_concat_length _ _, rfl, ?_, rfl⟩
      show Int.ofNat (countHashes line * 250) = 250
      rw [hl1]
      rfl
  -- level ≥ 2
  · rw [step2_deep _ _ _ h2]
    have hnodep : (mkNode2 line (yOf s (s.lastAt (countHashes line - 1)))
        (s.lastAt (countHashes line - 1))).parent = s.lastAt (countHashes line - 1) := rfl
    refine ⟨?_, ?_, ?_, ?_, ?_, ?_⟩
    · intro j p hjp
      obtain ⟨nd, hj, hp⟩ := bind_parent_elim hjp
      rcases getElem?_append_cases hj with ⟨hlt, hold⟩ | ⟨hje, rfl⟩
      · exact inv.plt j p (by rw [hold]; exact hp)
      · rw [hnodep] at hp
        obtain ⟨n, hn, -, -⟩ := inv.lastOf _ p hp
        have := mem_arena_lt hn
        omega
    · intro j p nj np hj hp hpn
      rcases getElem?_append_cases hj with ⟨hlt, hold⟩ | ⟨hje, rfl⟩
      · have hplt : p < j := inv.plt j p (by rw [hold]; simpa using hp)
        rw [List.getElem?_append_left (by omega)] at hpn
        exact inv.px j p nj np hold hp hpn
      · rw [hnodep] at hp
        obtain ⟨pn, hn, hx, hge⟩ := inv.lastOf _ p hp
        rw [List.getElem?_append_left (mem_arena_lt hn), hn] at hpn
        obtain rfl : pn = np := Option.some_inj.mp hpn
        show Int.ofNat (countHashes line * 250) = pn.x + 250
        rw [hx]
        have harith : countHashes line * 250 = (countHashes line - 1) * 250 + 250 := by omega
        rw [harith]
        rfl
    · intro j p nj np hj hp hpn
      rcases getElem?_append_cases hj with ⟨hlt, hold⟩ | ⟨hje, rfl⟩
      · have hplt : p < j := inv.plt j p (by rw [hold]; simpa using hp)
        rw [List.getElem?_append_left (by omega)] at hpn
        rw [take_append_old (by omega)]
        exact inv.py j p nj np hold hp hpn
      · rw [hnodep] at hp
        obtain ⟨pn, hn, -, -⟩ := inv.lastOf _ p hp
        rw [List.getElem?_append_left (mem_arena_lt hn), hn] at hpn
        obtain rfl : pn = np := Option.some_inj.mp hpn
        subst hje
        have htake : (s.arena ++ [mkNode2 line (yOf s (s.lastAt (countHashes line - 1)))
            (s.lastAt (countHashes line - 1))]).take s.arena.length = s.arena := by
          simpa using List.take_append_of_le_length (le_refl s.arena.length)
        dsimp only
        rw [htake]
        show yOf s (s.lastAt (countHashes line - 1)) = _
        rw [hp]
        simp [yOf, childIdxOf, parentYOf, hn]
    · intro j n hj
      rcases getElem?_append_cases hj with ⟨hlt, hold⟩ | ⟨hje, rfl⟩
      · exact inv.fieldsOf j n hold
      · exact ⟨line, hline, by omega, rfl, rfl, rfl, rfl, rfl⟩
    · intro L j hL
      by_cases hLe : L = countHashes line
      · subst hLe
        simp only [if_pos rfl] at hL
        obtain rfl : j = s.arena.length := by simpa using hL.symm
        exact ⟨_, List.getElem?_concat_length _ _, rfl, by omega⟩
      · simp only [if_neg hLe] at hL
        obtain ⟨n, hn, hx, hge⟩ := inv.lastOf L j hL
        exact ⟨n, getElem?_append_old hn, hx, hge⟩
    · intro r hr
      obtain ⟨n, hn, hpn, hx, hy⟩ := inv.rootOf r hr
      exact ⟨n, getElem?_append_old hn, hpn, hx, hy⟩

theorem inv2_init (lines : List Str) : Inv2 lines ⟨[], none, fun _ => none⟩ := by
  refine ⟨?_, ?_, ?_, ?_, ?_, ?_⟩
  · intro j p h; simp at h
  · intro j p nj np hj hp hpn; simp at hj
  · intro j p nj np hj hp hpn; simp at hj
  · intro j n hj; simp at hj
  · intro L j hL; simp at hL
  · intro r hr; simp at hr

/-- The arena invariants hold after the second pass, for any input. -/
theorem inv2_run (md : Str) : Inv2 (linesOf2 md) (runScheme2 md) := by
  unfold runScheme2
  exact foldlInv _ _ _ (inv2_init _)
    (fun s line hline inv => inv2_step _ s line hline inv)

/-! ## From the arena to the output tree -/

theorem mem_childIndices {arena : List Node2} {i j : Nat} :
    j ∈ childIndices arena i ↔ i < j ∧ arena[j]?.bind Node2.parent = some i := by
  unfold childIndices
  rw [List.mem_filter, List.mem_range, Bool.and_eq_true, decide_eq_true_eq]
  constructor
  · rintro ⟨hjlen, hij, hcond⟩
    refine ⟨hij, ?_⟩
    have h2 := eq_of_beq hcond
    cases hj : arena[j]? with
    | none => rw [hj] at h2; simp at h2
    | some nd =>
      rw [hj] at h2
      simp only [Option.map_some', Option.some_inj] at h2
      simp [h2]
  · rintro ⟨hij, hbind⟩
    obtain ⟨nd, hj, hp⟩ := bind_parent_elim hbind
    refine ⟨mem_arena_lt hj, hij, ?_⟩
    rw [hj]
    simp [hp]

theorem buildTreeF_congr {arena : List Node2} :
    ∀ (fuel fuel' j : Nat), arena.length ≤ j + fuel → arena.length ≤ j + fuel' →
    buildTreeF fuel arena j = buildTreeF fuel' arena j := by
  intro fuel
  induction fuel with
  | zero =>
    intro fuel' j h h'
    have hnone : arena[j]? = none := List.getElem?_eq_none (by omega)
    cases fuel' with
    | zero => rfl
    | succ fuel' => simp [buildTreeF, hnone]
  | succ fuel ih =>
    intro fuel' j h h'
    cases fuel' with
    | zero =>
      have hnone : arena[j]? = none := List.getElem?_eq_none (by omega)
      simp [buildTreeF, hnone]
    | succ fuel' =>
      simp only [buildTreeF]
      cases hj : arena[j]? with
      | none => rfl
      | some n =>
        dsimp only
        congr 1
        apply List.map_congr_left
        intro j' hj'
        obtain ⟨hij', -⟩ := mem_childIndices.mp hj'
        exact ih fuel' j' (by omega) (by omega)

/-- The one-step unfolding of `buildTree` at a valid index. -/
theorem buildTree_eq {arena : List Node2} {j : Nat} {n : Node2} (hn : arena[j]? = some n) :
    buildTree arena j =
      .mk n.id n.label n.color n.edgeLabel n.x n.y
        ((childIndices arena j).map (buildTree arena)) := by
  have hj : j < arena.length := mem_arena_lt hn
  have h1 : buildTree arena j = buildTreeF (arena.length + 1) arena j := by
    unfold buildTree
    exact buildTreeF_congr arena.length (arena.length + 1) j (by omega) (by omega)
  rw [h1]
  simp only [buildTreeF, hn]
  rfl

theorem inTree_lt {arena : List Node2} {r j : Nat} (hr : r < arena.length)
    (h : InTree arena r j) : j < arena.length := by
  induction h with
  | root => exact hr
  | child hbind hin ih =>
    obtain ⟨nd, hj, -⟩ := bind_parent_elim hbind
    exact mem_arena_lt hj

theorem inTree_append {arena : List Node2} {n : Node2} {r j : Nat}
    (h : InTree arena r j) : InTree (arena ++ [n]) r j := by
  induction h with
  | root => exact InTree.root
  | child hbind hin ih =>
    obtain ⟨nd, hj, hp⟩ := bind_parent_elim hbind
    exact InTree.child (by rw [getElem?_append_old hj]; simpa using hp) ih

/-- Every reachable arena node is realised somewhere (at some depth) in the
materialised output tree. -/
theorem inTree_atDepth {arena : List Node2} {r : Nat} (hplt : ParentLt arena)
    (hr : r < arena.length) :
    ∀ {j : Nat}, InTree arena r j →
    ∃ d, AtDepth Tree2.children (buildTree arena r) d (buildTree arena j) := by
  intro j h
  induction h with
  | root => exact ⟨0, AtDepth.zero⟩
  | @child j' p hbind hpin ih =>
    obtain ⟨d, hd⟩ := ih
    obtain ⟨nd, hj, hp⟩ := bind_parent_elim hbind
    refine ⟨d + 1, AtDepth.succ hd ?_⟩
    have hplen : p < arena.length := inTree_lt hr hpin
    obtain ⟨np, hnp⟩ : ∃ np, arena[p]? = some np := ⟨_, List.getElem?_eq_getElem hplen⟩
    have hch : (buildTree arena p).children =
        (childIndices arena p).map (buildTree arena) := by
      rw [buildTree_eq hnp]
      rfl
    rw [hch]
    exact List.mem_map_of_mem _ (mem_childIndices.mpr ⟨hplt j' p hbind, hbind⟩)

/-- Every node of the materialised tree comes from a reachable arena index,
whose `x` moreover satisfies `x = 250 * (depth + 1)`. -/
theorem atDepth_buildTree {arena : List Node2} {r : Nat} (hplt : ParentLt arena)
    (hpx : ParentX arena) {nr : Node2} (hnr : arena[r]? = some nr) (hxr : nr.x = 250) :
    ∀ {d : Nat} {m : Tree2}, AtDepth Tree2.children (buildTree arena r) d m →
    ∃ j nj, InTree arena r j ∧ arena[j]? = some nj ∧ m = buildTree arena j ∧
      nj.x = 250 * ((d : Int) + 1) := by
  intro d m h
  induction h with
  | zero =>
    refine ⟨r, nr, InTree.root, hnr, rfl, ?_⟩
    rw [hxr]
    norm_num
  | @succ d mm c hd hmem ih =>
    obtain ⟨j, nj, hin, hj, rfl, hx⟩ := ih
    have hmem' : c ∈ (childIndices arena j).map (buildTree arena) := by
      have hch : (buildTree arena j).children =
          (childIndices arena j).map (buildTree arena) := by
        rw [buildTree_eq hj]
        rfl
      rwa [hch] at hmem
    obtain ⟨j', hj'mem, rfl⟩ := List.mem_map.mp hmem'
    obtain ⟨hij', hbind⟩ := mem_childIndices.mp hj'mem
    obtain ⟨nj', hj's, hp'⟩ := bind_parent_elim hbind
    refine ⟨j', nj', InTree.child hbind hin, hj's, rfl, ?_⟩
    have hstep := hpx j' j nj' nj hj's hp' hj
    rw [hstep, hx]
    push_cast
    ring

/-- Reachable nodes have a real (non-`NaN`) vertical coordinate. -/
theorem inTree_y_some {arena : List Node2} {r : Nat} (hpy : ParentY arena)
    {nr : Node2} (hnr : arena[r]? = some nr) (hyr : nr.y = some 160) :
    ∀ {j : Nat}, InTree arena r j → ∃ nj v, arena[j]? = some nj ∧ nj.y = some v := by
  intro j h
  induction h with
  | root => exact ⟨nr, 160, hnr, hyr⟩
  | @child j' p hbind hpin ih =>
    obtain ⟨np, v, hp, hyv⟩ := ih
    obtain ⟨nj, hj, hpj⟩ := bind_parent_elim hbind
    have hy := hpy j' p nj np hj hpj hp
    rw [hyv] at hy
    by_cases h0 : countParent (arena.take j') p = 0
    · rw [if_pos h0] at hy
      exact ⟨nj, v - 80, hj, hy⟩
    · rw [if_neg h0] at hy
      exact ⟨nj, v + 80 * Int.ofNat (countParent (arena.take j') p), hj, hy⟩

/-! ## Sibling positions -/

theorem filter_range_pos {p : Nat → Bool} :
    ∀ (n k x : Nat), ((List.range n).filter p)[k]? = some x →
    ((List.range x).filter p).length = k ∧ p x = true ∧ x < n := by
  intro n
  induction n with
  | zero => intro k x h; simp at h
  | succ n ih =>
    intro k x h
    rw [List.range_succ, List.filter_append] at h
    rcases Nat.lt_or_ge k ((List.range n).filter p).length with hk | hk
    · rw [List.getElem?_append_left hk] at h
      obtain ⟨h1, h2, h3⟩ := ih k x h
      exact ⟨h1, h2, by omega⟩
    · rw [List.getElem?_append_right hk, List.filter_singleton] at h
      cases hpn : p n with
      | true =>
        rw [hpn] at h
        simp only [cond_true] at h
        have hk0 : k - ((List.range n).filter p).length = 0 := by
          by_contra hne
          have hnone : ([n] : List Nat)[k - ((List.range n).filter p).length]? = none :=
            List.getElem?_eq_none (by simp; omega)
          rw [hnone] at h
          exact Option.noConfusion h
        rw [hk0] at h
        simp only [List.getElem?_cons_zero, Option.some_inj] at h
        subst h
        exact ⟨by omega, hpn, by omega⟩
      | false =>
        rw [hpn] at h
        simp at h

theorem countP_take_eq {α : Type} (q : α → Bool) (l : List α) :
    ∀ j, j ≤ l.length → (l.take j).countP q =
      ((List.range j).filter (fun k =>
        match l[k]? with
        | some a => q a
        | none => false)).length := by
  intro j
  induction j with
  | zero => intro _; simp
  | succ j ih =>
    intro hj
    rw [List.take_succ, List.countP_append, List.range_succ, List.filter_append,
      List.length_append, ih (by omega)]
    congr 1
    have hjl : j < l.length := by omega
    obtain ⟨a, ha⟩ : ∃ a, l[j]? = some a := ⟨_, List.getElem?_eq_getElem hjl⟩
    rw [ha, List.filter_singleton]
    cases hqa : q a <;> simp [ha, hqa, List.countP_cons, List.countP_nil]

/-- The `k`-th entry of `childIndices arena i` is exactly the node that was
created as the `k`-th child of `i`. -/
theorem childIndices_pos {arena : List Node2} (hplt : ParentLt arena) {i k jc : Nat}
    (hk : (childIndices arena i)[k]? = some jc) :
    countParent (arena.take jc) i = k ∧ arena[jc]?.bind Node2.parent = some i := by
  unfold childIndices at hk
  obtain ⟨hlen, hp, hjc⟩ := filter_range_pos _ k jc hk
  rw [Bool.and_eq_true] at hp
  obtain ⟨-, hp2⟩ := hp
  have hbind : arena[jc]?.bind Node2.parent = some i := by
    have h2 := eq_of_beq hp2
    cases hj : arena[jc]? with
    | none => rw [hj] at h2; simp at h2
    | some nd =>
      rw [hj] at h2
      simp only [Option.map_some', Option.some_inj] at h2
      simp [h2]
  refine ⟨?_, hbind⟩
  unfold countParent
  rw [countP_take_eq _ _ jc (le_of_lt (mem_arena_lt (bind_parent_elim hbind).choose_spec.1))]
  rw [← hlen]
  congr 1
  apply List.filter_congr
  intro m hm
  cases hmm : arena[m]? with
  | none => simp
  | some nd =>
    show (nd.parent == some i) = (decide (i < m) && (Option.map Node2.parent (some nd) == some (some i)))
    cases hnd : (nd.parent == some i) with
    | false =>
      have : (Option.map Node2.parent (some nd) == some (some i)) = false := by
        simpa using hnd
      rw [this, Bool.and_false]
    | true =>
      have hpar : nd.parent = some i := eq_of_beq hnd
      have hilt : i < m := hplt m i (by rw [hmm]; simpa using hpar)
      have : (Option.map Node2.parent (some nd) == some (some i)) = true := by
        simpa using hnd
      rw [this, Bool.and_true]
      exact (decide_eq_true hilt).symm

/-- The `k`-th child of an in-tree node got `y = parent.y - 80` when `k = 0`
and `y = parent.y + 80 * k` otherwise. -/
theorem sibling_y {arena : List Node2} (hplt : ParentLt arena) (hpy : ParentY arena)
    {i k jc : Nat} {np : Node2} (hi : arena[i]? = some np)
    (hk : (childIndices arena i)[k]? = some jc) :
    ∃ nc, arena[jc]? = some nc ∧
      nc.y = if k = 0 then jsub np.y 80 else jadd np.y (80 * Int.ofNat k) := by
  obtain ⟨hcount, hbind⟩ := childIndices_pos hplt hk
  obtain ⟨nc, hjc, hpc⟩ := bind_parent_elim hbind
  refine ⟨nc, hjc, ?_⟩
  have hy := hpy jc i nc np hjc hpc hi
  rw [hcount] at hy
  exact hy

/-! ## Counting nodes per heading line (scheme 2) -/

/-- The heading levels of a line sequence, in order (level-0 lines are
skipped by scheme 2). -/
def headingLevels (lines : List Str) : List Nat :=
  (lines.map countHashes).filter (fun L => L ≠ 0)

theorem headingLevels_cons (l : Str) (ls : List Str) :
    headingLevels (l :: ls) =
      if countHashes l = 0 then headingLevels ls
      else countHashes l :: headingLevels ls := by
  by_cases h : countHashes l = 0 <;> simp [headingLevels, List.filter_cons, h]

theorem step2_len (ccbp : List (Str × Nat)) (s : S2) (line : Str) :
    (step2 ccbp s line).arena.length =
      if countHashes line = 0 then s.arena.length else s.arena.length + 1 := by
  rcases Nat.lt_or_ge (countHashes line) 1 with h0 | h1
  · rw [step2_zero _ _ _ (by omega), if_pos (by omega)]
  rcases Nat.lt_or_ge (countHashes line) 2 with h1' | h2
  · rw [step2_one _ _ _ (by omega), if_neg (by omega)]
    simp
  · rw [step2_deep _ _ _ h2, if_neg (by omega)]
    simp

/-- Each heading line creates exactly one arena node. -/
theorem run2_len (ccbp : List (Str × Nat)) :
    ∀ (lines : List Str) (s : S2),
    (lines.foldl (step2 ccbp) s).arena.length =
      s.arena.length + (headingLevels lines).length := by
  intro lines
  induction lines with
  | nil => intro s; simp [headingLevels]
  | cons l rest ih =>
    intro s
    rw [List.foldl_cons, ih, headingLevels_cons, step2_len]
    by_cases h : countHashes l = 0 <;> simp [h] <;> omega

/-- Well-formedness of the heading levels after the first: each heading is
non-root (level at least 2) and deepens by at most one relative to the
previous heading. -/
def Wf2 : Nat → List Nat → Prop
  | _, [] => True
  | prev, L :: rest => 2 ≤ L ∧ L ≤ prev + 1 ∧ Wf2 L rest

/-- Running invariant for well-formed inputs: a root exists, every node
created so far is reachable from it, and `lastNodeAtLevel` is populated
with reachable nodes for every level from 1 up to the previous heading's
level. -/
def Q2 (s : S2) (prev : Nat) : Prop :=
  ∃ r, s.root = some r ∧ r < s.arena.length ∧
    (∀ j, j < s.arena.length → InTree s.arena r j) ∧
    (∀ L, 1 ≤ L → L ≤ prev →
      ∃ idx, s.lastAt L = some idx ∧ idx < s.arena.length ∧ InTree s.arena r idx)

theorem q2_step (ccbp : List (Str × Nat)) (s : S2) (line : Str) (prev : Nat)
    (hq : Q2 s prev) (h2 : 2 ≤ countHashes line) (hle : countHashes line ≤ prev + 1) :
    Q2 (step2 ccbp s line) (countHashes line) := by
  obtain ⟨r, hroot, hrlen, hall, hlast⟩ := hq
  obtain ⟨p, hp, hplen, hpin⟩ := hlast (countHashes line - 1) (by omega) (by omega)
  rw [step2_deep _ _ _ h2]
  refine ⟨r, hroot, by simp; omega, ?_, ?_⟩
  · intro j hj
    simp only [List.length_append, List.length_cons, List.length_nil] at hj
    rcases Nat.lt_or_ge j s.arena.length with hjlt | hjge
    · exact inTree_append (hall j hjlt)
    · have hje : j = s.arena.length := by omega
      subst hje
      refine InTree.child ?_ (inTree_append hpin)
      rw [List.getElem?_concat_length]
      show (mkNode2 line (yOf s (s.lastAt (countHashes line - 1)))
        (s.lastAt (countHashes line - 1))).parent = some p
      rw [hp]
      rfl
  · intro L hL1 hLle
    by_cases hLe : L = countHashes line
    · subst hLe
      refine ⟨s.arena.length, by simp, by simp, ?_⟩
      refine InTree.child ?_ (inTree_append hpin)
      rw [List.getElem?_concat_length]
      show (mkNode2 line (yOf s (s.lastAt (countHashes line - 1)))
        (s.lastAt (countHashes line - 1))).parent = some p
      rw [hp]
      rfl
    · obtain ⟨idx, hidx, hidxlen, hidxin⟩ := hlast L hL1 (by omega)
      exact ⟨idx, by simp [hLe, hidx], by simp; omega, inTree_append hidxin⟩

theorem q2_main (ccbp : List (Str × Nat)) :
    ∀ (lines : List Str) (s : S2) (prev : Nat),
    Q2 s prev → Wf2 prev (headingLevels lines) →
    ∃ prev', Q2 (lines.foldl (step2 ccbp) s) prev' := by
  intro lines
  induction lines with
  | nil =>
    intro s prev hq _
    exact ⟨prev, hq⟩
  | cons l rest ih =>
    intro s prev hq hwf
    rw [List.foldl_cons]
    rw [headingLevels_cons] at hwf
    by_cases h0 : countHashes l = 0
    · rw [step2_zero _ _ _ h0]
      rw [if_pos h0] at hwf
      exact ih s prev hq hwf
    · rw [if_neg h0] at hwf
      obtain ⟨hl2, hlle, hwf'⟩ := hwf
      exact ih _ (countHashes l) (q2_step ccbp s l prev hq hl2 hlle) hwf'

theorem q2_entry (ccbp : List (Str × Nat)) :
    ∀ (lines : List Str) (rest : List Nat),
    headingLevels lines = 1 :: rest → Wf2 1 rest →
    ∃ prev', Q2 (lines.foldl (step2 ccbp) ⟨[], none, fun _ => none⟩) prev' := by
  intro lines
  induction lines with
  | nil =>
    intro rest h
    simp [headingLevels] at h
  | cons l ls ih =>
    intro rest hh hwf
    rw [List.foldl_cons]
    rw [headingLevels_cons] at hh
    by_cases h0 : countHashes l = 0
    · rw [step2_zero _ _ _ h0]
      rw [if_pos h0] at hh
      exact ih rest hh hwf
    · rw [if_neg h0] at hh
      obtain ⟨hl1, hrest⟩ : countHashes l = 1 ∧ headingLevels ls = rest := by
        have := List.cons.inj hh
        exact ⟨this.1, this.2⟩
      rw [step2_one _ _ _ hl1]
      apply q2_main ccbp ls _ 1 ?_ (by rw [hrest]; exact hwf)
      refine ⟨0, by simp, by simp, ?_, ?_⟩
      · intro j hj
        simp at hj
        subst hj
        exact InTree.root
      · intro L hL1 hLle
        have hL : L = 1 := by omega
        subst hL
        exact ⟨0, by simp, by simp, InTree.root⟩

/-! ## Counting nodes per heading line (scheme 1) -/

/-- Invariant while every further line is strictly deeper than the first:
the stack is `fs ++ [f0, rootFrame]` with the first line's frame `f0` still
open, the virtual root frame untouched (childless), and every open frame
above `f0` strictly deeper than `f0`. -/
def Stacked (L0 : Int) (st : List Frame) : Prop :=
  ∃ fs f0, st = fs ++ [f0, rootFrame] ∧ f0.level = L0 ∧ ∀ f ∈ fs, L0 < f.level

/-- Either some frame of the stack prefix lies below the incoming level, or
the whole prefix is at or above it. -/
theorem splitFirstBelow :
    ∀ (fs : List Frame) (L : Int),
    (∃ fsA g fsB, fs = fsA ++ g :: fsB ∧ (∀ f ∈ fsA, L ≤ f.level) ∧ g.level < L) ∨
    (∀ f ∈ fs, L ≤ f.level) := by
  intro fs L
  induction fs with
  | nil => exact Or.inr (by simp)
  | cons f fs' ih =>
    rcases Int.lt_or_le f.level L with hf | hf
    · exact Or.inl ⟨[], f, fs', by simp, by simp, hf⟩
    · rcases ih with ⟨fsA, g, fsB, heq, hA, hg⟩ | hall
      · refine Or.inl ⟨f :: fsA, g, fsB, by rw [heq]; rfl, ?_, hg⟩
        intro f' hf'
        rcases List.mem_cons.mp hf' with h | h
        · subst h; exact hf
        · exact hA f' h
      · refine Or.inr ?_
        intro f' hf'
        rcases List.mem_cons.mp hf' with h | h
        · subst h; exact hf
        · exact hall f' h

theorem step1_eq (st : List Frame) (line : Str) :
    step1 st line = ⟨Int.ofNat (countHashes line), trimChars (stripHeading line), []⟩ ::
      popFramesF st.length st (Int.ofNat (countHashes line)) := rfl

theorem stacked_step (L0 : Int) (st : List Frame) (line : Str)
    (hst : Stacked L0 st) (hL : L0 < Int.ofNat (countHashes line)) :
    Stacked L0 (step1 st line) := by
  obtain ⟨fs, f0, heq, hf0, hfs⟩ := hst
  subst heq
  rcases splitFirstBelow fs (Int.ofNat (countHashes line)) with
    ⟨fsA, g, fsB, heq, hA, hg⟩ | hall
  · subst heq
    have hassoc : (fsA ++ g :: fsB) ++ [f0, rootFrame] =
        fsA ++ g :: (fsB ++ [f0, rootFrame]) := by simp
    rw [hassoc, step1_eq]
    obtain ⟨ch, hch, -⟩ := popStop ((fsA ++ g :: (fsB ++ [f0, rootFrame])).length) fsA g
      (fsB ++ [f0, rootFrame]) (Int.ofNat (countHashes line)) hA hg
      (by simp only [List.length_append, List.length_cons]; omega)
    rw [hch]
    refine ⟨⟨Int.ofNat (countHashes line), trimChars (stripHeading line), []⟩ ::
      { level := g.level, content := g.content, children := g.children ++ ch } :: fsB, f0,
      by simp, hf0, ?_⟩
    intro f hf
    rcases List.mem_cons.mp hf with h | h
    · subst h; exact hL
    rcases List.mem_cons.mp h with h | h
    · subst h
      exact hfs g (by simp)
    · exact hfs f (by simp [h])
  · have hassoc : (fs ++ [f0, rootFrame]) = fs ++ f0 :: [rootFrame] := by simp
    rw [hassoc, step1_eq]
    obtain ⟨ch, hch, -⟩ := popStop ((fs ++ f0 :: [rootFrame]).length) fs f0
      [rootFrame] (Int.ofNat (countHashes line)) hall (by omega)
      (by simp only [List.length_append, List.length_cons]; omega)
    rw [hch]
    exact ⟨[⟨Int.ofNat (countHashes line), trimChars (stripHeading line), []⟩],
      { level := f0.level, content := f0.content, children := f0.children ++ ch },
      by simp, hf0, by intro f hf; simp at hf; subst hf; exact hL⟩

/-- Parse outcome under the invariant: the virtual root has exactly one
child (the first line's subtree), which carries every processed line. -/
theorem stacked_parse1 (md : Str) (L0 : Int)
    (hst : Stacked L0 ((nonblankLines md).foldl step1 [rootFrame])) :
    ∃ nd, (buildRoot md).children = [nd] ∧
      parseMarkdown1 md = some (convNode nd 0 0) ∧
      sizeMN nd = (nonblankLines md).length := by
  obtain ⟨fs, f0, heq, hf0, hfs⟩ := hst
  have hre : fs ++ [f0, rootFrame] = (fs ++ [f0]) ++ [rootFrame] := by simp
  obtain ⟨nd, hnd⟩ := (collapseChain (((fs ++ [f0]) ++ [rootFrame]).length) (fs ++ [f0])
    rootFrame (by simp)).2 (by simp)
  have hbuild : buildRoot md =
      ({ rootFrame with children := rootFrame.children ++ [nd] } : Frame).toNode := by
    unfold buildRoot
    dsimp only
    rw [heq, hre, hnd]
  have hch : (buildRoot md).children = [nd] := by
    rw [hbuild]
    rfl
  have hsz : sizeMN nd = (nonblankLines md).length := by
    have h1 := sizeMN_buildRoot md
    rw [hbuild] at h1
    simp only [Frame.toNode, rootFrame, sizeMN, sizeML, List.nil_append] at h1
    omega
  refine ⟨nd, hch, ?_, hsz⟩
  unfold parseMarkdown1
  rw [hch]

/-- Running up the invariant: first line opens `f0`, every further line is
strictly deeper. -/
theorem wf1_stacked (md : Str) (l0 : Str) (rest : List Str)
    (hlines : nonblankLines md = l0 :: rest)
    (hdeep : ∀ l ∈ rest, countHashes l0 < countHashes l) :
    Stacked (Int.ofNat (countHashes l0)) ((nonblankLines md).foldl step1 [rootFrame]) := by
  rw [hlines, List.foldl_cons]
  have hfirst : step1 [rootFrame] l0 =
      [⟨Int.ofNat (countHashes l0), trimChars (stripHeading l0), []⟩, rootFrame] := rfl
  rw [hfirst]
  apply foldlInv step1 rest _ ?base ?step
  case base =>
    exact ⟨[], ⟨Int.ofNat (countHashes l0), trimChars (stripHeading l0), []⟩,
      by simp, rfl, by simp⟩
  case step =>
    intro st l hl hst
    exact stacked_step _ st l hst (Int.ofNat_lt.mpr (hdeep l hl))

/-- The number of heading lines of the raw input (scheme 1 splits the raw
string). -/
def headingCount (md : Str) : Nat :=
  ((splitLines md).filter (fun l => 1 ≤ countHashes l)).length

/-- A heading line is never blank: its `#` survives trimming. -/
theorem heading_nonblank {l : Str} (h : 1 ≤ countHashes l) :
    (trimChars l).isEmpty = false := by
  match l with
  | [] => simp [countHashes, List.takeWhile] at h
  | c :: rest =>
    have hc : c = '#' := by
      by_contra hne
      have hp : (c == '#') = false := by
        simp [hne]
      have : countHashes (c :: rest) = 0 := by
        simp [countHashes, List.takeWhile_cons, hp]
      omega
    subst hc
    unfold trimChars
    have h1 : List.dropWhile isWs ('#' :: rest) = '#' :: rest := by
      rw [List.dropWhile_cons_of_neg]
      simp [isWs]
    rw [h1]
    by_contra hemp
    rw [Bool.not_eq_false, List.isEmpty_iff] at hemp
    have h2 : ('#' :: rest).reverse.dropWhile isWs = [] := by
      have := congrArg List.reverse hemp
      simpa using this
    rw [List.dropWhile_eq_nil_iff] at h2
    have := h2 '#' (by simp)
    simp [isWs] at this

/-- Depth is 0 and the node is the root itself in a childless tree. -/
theorem atDepth_leaf {α : Type} {ch : α → List α} {t : α} (hch : ch t = []) :
    ∀ {d : Nat} {m : α}, AtDepth ch t d m → d = 0 ∧ m = t := by
  intro d m h
  induction h with
  | zero => exact ⟨rfl, rfl⟩
  | succ hd hmem ih =>
    obtain ⟨rfl, rfl⟩ := ih
    rw [hch] at hmem
    exact absurd hmem (List.not_mem_nil _)

/-! ## Claim C8 -/

/-- C8: the parse-and-layout pipeline of both schemes is a pure,
deterministic function of the input string — two invocations on equal
inputs yield structurally identical trees (the embedding carries no other
state, matching the source, which reads and writes nothing outside its
locals). -/
theorem c8_pure (s t : Str) (h : s = t) :
    parseMarkdown1 s = parseMarkdown1 t ∧ parseMarkdown2 s = parseMarkdown2 t := by
  subst h
  exact ⟨rfl, rfl⟩

theorem c8_pure_witness :
    parseMarkdown1 "# A".data = parseMarkdown1 "# A".data ∧
    parseMarkdown2 "# A".data = parseMarkdown2 "# A".data :=
  c8_pure "# A".data "# A".data rfl

/-! ## Claim C2 -/

/-- One-step unfolding of the scheme 2 entry point. -/
theorem parseMarkdown2_eq (md : Str) :
    parseMarkdown2 md =
      (match (runScheme2 md).root with
       | some r => buildTree (runScheme2 md).arena r
       | none => fallback2) := rfl

/-- C2 counterexample: in the second scheme the returned root (depth 0) of
"# A" sits at `x = 250`, not `depth * horizontalSpacing = 0` — scheme 2
computes `x = level * 250` from the raw heading level, which is `depth + 1`
for every node it keeps. -/
theorem c2_counterexample :
    AtDepth Tree2.children (parseMarkdown2 "# A".data) 0 (parseMarkdown2 "# A".data) ∧
    (parseMarkdown2 "# A".data).x = 250 ∧ ((250 : Int) ≠ 250 * (0 : Int)) :=
  ⟨AtDepth.zero, rfl, by decide⟩

/-- C2 (amended): in scheme 1, `x = 200 * depth` exactly as claimed (depth
is tree depth, even across level skips); in scheme 2, every node of the
output tree — the root included — satisfies `x = 250 * (depth + 1)` instead
of `x = 250 * depth`. -/
theorem c2_amended :
    (∀ (md : Str) (t : MMNode), parseMarkdown1 md = some t →
      ∀ (d : Nat) (m : MMNode), AtDepth MMNode.children t d m → m.x = 200 * (d : Int)) ∧
    (∀ (md : Str) (d : Nat) (m : Tree2),
      AtDepth Tree2.children (parseMarkdown2 md) d m → m.x = 250 * ((d : Int) + 1)) := by
  constructor
  · intro md t hp d m hd
    unfold parseMarkdown1 at hp
    cases hb : (buildRoot md).children with
    | nil => rw [hb] at hp; cases hp
    | cons c cs =>
      rw [hb] at hp
      obtain rfl : convNode c 0 0 = t := Option.some_inj.mp hp
      obtain ⟨c', j, rfl⟩ := atDepth_conv hd
      rw [convNode_x]
      rw [Int.ofNat_eq_natCast]
      push_cast
      ring
  · intro md d m hd
    rw [parseMarkdown2_eq] at hd
    have inv := inv2_run md
    cases hr : (runScheme2 md).root with
    | none =>
      rw [hr] at hd
      simp only [] at hd
      obtain ⟨rfl, rfl⟩ := atDepth_leaf (by rfl) hd
      show (250 : Int) = 250 * ((0 : Int) + 1)
      norm_num
    | some r =>
      rw [hr] at hd
      simp only [] at hd
      obtain ⟨nr, hnr, -, hxr, -⟩ := inv.rootOf r hr
      obtain ⟨j, nj, hin, hj, rfl, hx⟩ := atDepth_buildTree inv.plt inv.px hnr hxr hd
      rw [buildTree_eq hj]
      show nj.x = _
      rw [hx]

theorem c2_amended_witness :
    (MMNode.mk "node-1-0".data "B".data 200 0 []).x = 200 * ((1 : Nat) : Int) ∧
    (Tree2.mk "b".data "B".data defaultColor none 500 (some 80) []).x =
      250 * (((1 : Nat) : Int) + 1) :=
  ⟨c2_amended.1 "# A\n## B".data
      (MMNode.mk "node-0-0".data "A".data 0 0 [MMNode.mk "node-1-0".data "B".data 200 0 []])
      rfl 1 _ (AtDepth.succ AtDepth.zero (List.mem_singleton_self _)),
   c2_amended.2 "# A\n## B".data 1 _ (AtDepth.succ AtDepth.zero (List.mem_singleton_self _))⟩

/-! ## Claim C3 -/

/-- C3 counterexample: in the second scheme the level skip "# A\n### D"
does not attach D as a child of A — no node was recorded at level 2, so D
becomes an unreachable orphan and the returned root A has no children. -/
theorem c3_counterexample :
    parseMarkdown2 "# A\n### D".data =
      Tree2.mk "a".data "A".data defaultColor none 250 (some 160) [] := by rfl

/-- C3 (amended): in scheme 1 the claim holds — a new heading closes every
open frame at or above its own level and is attached as the last child of
the nearest remaining (strictly shallower) open ancestor; concretely
"# A\n### D" attaches D as a child of A.  In scheme 2, a level-skipped
heading is attached only if some node was already recorded at exactly
level−1; "# A\n### D" drops D entirely. -/
theorem c3_amended :
    (∀ (s1 : List Frame) (g : Frame) (rest : List Frame) (line : Str),
      (∀ f ∈ s1, Int.ofNat (countHashes line) ≤ f.level) →
      g.level < Int.ofNat (countHashes line) →
      ∃ ch, step1 (s1 ++ g :: rest) line =
        ⟨Int.ofNat (countHashes line), trimChars (stripHeading line), []⟩ ::
          ({ level := g.level, content := g.content, children := g.children ++ ch } : Frame)
            :: rest) ∧
    parseMarkdown1 "# A\n### D".data =
      some (MMNode.mk "node-0-0".data "A".data 0 0
        [MMNode.mk "node-1-0".data "D".data 200 0 []]) ∧
    (parseMarkdown2 "# A\n### D".data).children = [] := by
  refine ⟨?_, by rfl, by rfl⟩
  intro s1 g rest line hA hg
  rw [step1_eq]
  obtain ⟨ch, hch, -⟩ := popStop ((s1 ++ g :: rest).length) s1 g rest _ hA hg
    (by simp only [List.length_append, List.length_cons]; omega)
  exact ⟨ch, by rw [hch]⟩

theorem c3_amended_witness :
    ∃ ch : List MarkdownNode,
      step1 ([⟨5, "X".data, []⟩] ++ (⟨1, "A".data, []⟩ : Frame) :: [rootFrame])
        "### D".data =
      ⟨Int.ofNat (countHashes "### D".data), trimChars (stripHeading "### D".data), []⟩ ::
        ({ level := (1 : Int), content := "A".data,
           children := ([] : List MarkdownNode) ++ ch } : Frame)
          :: [rootFrame] :=
  c3_amended.1 [⟨5, "X".data, []⟩] ⟨1, "A".data, []⟩ [rootFrame] "### D".data
    (by intro f hf; simp at hf; subst hf; decide) (by decide)

/-! ## Claim C9 -/

/-- C9: scheme 1 returns exactly the subtree of the first entry attached
under the virtual super-root: the output is its conversion, and its node
count plus the sizes of all later root-level subtrees accounts for every
non-blank line — so when a second root-level entry exists, its entire
subtree is absent from the returned result. -/
theorem c9_first_subtree (md : Str) (c : MarkdownNode) (rest : List MarkdownNode)
    (h : (buildRoot md).children = c :: rest) :
    parseMarkdown1 md = some (convNode c 0 0) ∧
    countMM (convNode c 0 0) + sizeML rest = (nonblankLines md).length := by
  constructor
  · unfold parseMarkdown1
    rw [h]
  · rw [conv_size]
    have h1 := sizeMN_buildRoot md
    cases hb : buildRoot md with
    | mk lv ct cs =>
      rw [hb] at h h1
      simp only [MarkdownNode.children] at h
      subst h
      simp only [sizeMN, sizeML] at h1
      omega

theorem c9_first_subtree_witness :
    parseMarkdown1 "# A\n# B".data =
      some (convNode (MarkdownNode.mk 1 "A".data []) 0 0) ∧
    countMM (convNode (MarkdownNode.mk 1 "A".data []) 0 0) +
      sizeML [MarkdownNode.mk 1 "B".data []] = (nonblankLines "# A\n# B".data).length :=
  c9_first_subtree "# A\n# B".data (MarkdownNode.mk 1 "A".data [])
    [MarkdownNode.mk 1 "B".data []] rfl

/-! ## Claim C1 -/

/-- C1 counterexample: on the empty string the first scheme produces no
tree at all: `root.children` is empty, `root.children[0]` is `undefined`,
and `convertToMindMap(undefined)` dereferences `node.content` — a
`TypeError`, modelled as `none` — rather than returning the fallback root
the claim promises for every input. -/
theorem c1_counterexample : parseMarkdown1 [] = none := by rfl

theorem foldl_step2_zero (ccbp : List (Str × Nat)) :
    ∀ (lines : List Str) (s : S2), (∀ l ∈ lines, countHashes l = 0) →
    lines.foldl (step2 ccbp) s = s := by
  intro lines
  induction lines with
  | nil => intro s _; rfl
  | cons l rest ih =>
    intro s hall
    rw [List.foldl_cons, step2_zero _ _ _ (hall l (List.mem_cons_self l rest))]
    exact ih s (fun l' hl' => hall l' (List.mem_cons_of_mem l hl'))

/-- C1 (amended): the second scheme never fails and returns the fixed
fallback root (`nyc`, position (250, 250), no children) whenever the input
has no heading lines.  The first scheme returns a tree for every input with
at least one non-blank line (a heading-less line becomes the root node
itself, per its documented policy), but fails — `TypeError`, modelled
`none` — when the input has no non-blank line at all. -/
theorem c1_amended :
    (∀ md : Str, (∀ l ∈ linesOf2 md, countHashes l = 0) → parseMarkdown2 md = fallback2) ∧
    (∀ (md l : Str), l ∈ splitLines md → (trimChars l).isEmpty = false →
      ∃ t, parseMarkdown1 md = some t) ∧
    parseMarkdown1 [] = none := by
  refine ⟨?_, ?_, by rfl⟩
  · intro md hall
    rw [parseMarkdown2_eq]
    have hrun : runScheme2 md = ⟨[], none, fun _ => none⟩ := by
      unfold runScheme2
      exact foldl_step2_zero _ _ _ hall
    rw [hrun]
  · intro md l hmem hblank
    have hl : l ∈ nonblankLines md := by
      unfold nonblankLines
      rw [List.mem_filter]
      exact ⟨hmem, by rw [hblank]; rfl⟩
    have hlen : 1 ≤ (nonblankLines md).length := by
      cases hnb : nonblankLines md with
      | nil => rw [hnb] at hl; exact absurd hl (List.not_mem_nil l)
      | cons a b => simp
    have h1 := sizeMN_buildRoot md
    unfold parseMarkdown1
    cases hb : buildRoot md with
    | mk lv ct cs =>
      cases cs with
      | nil =>
        rw [hb] at h1
        simp only [sizeMN, sizeML] at h1
        omega
      | cons c cs' =>
        exact ⟨convNode c 0 0, by simp [MarkdownNode.children]⟩

theorem c1_amended_witness :
    parseMarkdown2 "hello".data = fallback2 ∧
    ∃ t, parseMarkdown1 "hello".data = some t :=
  ⟨c1_amended.1 "hello".data (by decide),
   c1_amended.2.1 "hello".data "hello".data (by decide) (by decide)⟩

/-! ## Claim C5 -/

mutual

def collectIds1 : MMNode → List Str
  | .mk i _ _ _ cs => i :: collectIds1L cs

def collectIds1L : List MMNode → List Str
  | [] => []
  | c :: rest => collectIds1 c ++ collectIds1L rest

end

mutual

def collectIds2 : Tree2 → List Str
  | .mk i _ _ _ _ _ cs => i :: collectIds2L cs

def collectIds2L : List Tree2 → List Str
  | [] => []
  | c :: rest => collectIds2 c ++ collectIds2L rest

end

/-- C5 counterexample: ids are not pairwise distinct.  Scheme 1 assigns
`node-2-0` to the first grandchild of each of two different depth-1
parents.  Scheme 2 derives the id from the label alone, so two "## B"
lines collide on the id `b`. -/
theorem c5_counterexample :
    (parseMarkdown1 "# A\n## B\n### C\n## D\n### E".data).map collectIds1 =
      some ["node-0-0".data, "node-1-0".data, "node-2-0".data,
            "node-1-1".data, "node-2-0".data] ∧
    ¬ List.Nodup ["node-0-0".data, "node-1-0".data, "node-2-0".data,
        "node-1-1".data, "node-2-0".data] ∧
    collectIds2 (parseMarkdown2 "# A\n## B\n## B".data) =
      ["a".data, "b".data, "b".data] ∧
    ¬ List.Nodup [("a".data : Str), "b".data, "b".data] :=
  ⟨by rfl, by decide, by rfl, by decide⟩

/-- Every node of a scheme 2 output tree has its id equal to its
normalised (lowercased, whitespace-to-dash) label; this also holds for the
fallback root (`"NYC"` normalises to `"nyc"`). -/
theorem tree2_id_label (md : Str) :
    ∀ (d : Nat) (m : Tree2), AtDepth Tree2.children (parseMarkdown2 md) d m →
    m.id = normalizeId m.label := by
  intro d m hd
  rw [parseMarkdown2_eq] at hd
  have inv := inv2_run md
  cases hr : (runScheme2 md).root with
  | none =>
    rw [hr] at hd
    simp only [] at hd
    obtain ⟨rfl, rfl⟩ := atDepth_leaf (by rfl) hd
    decide
  | some r =>
    rw [hr] at hd
    simp only [] at hd
    obtain ⟨nr, hnr, -, hxr, -⟩ := inv.rootOf r hr
    obtain ⟨j, nj, hin, hj, rfl, -⟩ := atDepth_buildTree inv.plt inv.px hnr hxr hd
    rw [buildTree_eq hj]
    show nj.id = normalizeId nj.label
    obtain ⟨l, -, -, hid, hlab, -, -, -⟩ := inv.fieldsOf j nj hj
    rw [hid, hlab]

/-- C5 (amended): ids are distinct under each scheme precisely on the
equivalence the encoding actually separates.  Scheme 1: `node-<d>-<j>` is
injective in (depth, sibling index), so two nodes differing in depth or in
sibling index get distinct ids (only same-(depth,index) nodes under
different parents collide).  Scheme 2: the id is the normalised label, so
two nodes with distinct normalised labels get distinct ids (only repeated
labels collide). -/
theorem c5_amended :
    (∀ (md : Str) (t : MMNode), parseMarkdown1 md = some t →
      ∀ (d j : Nat) (m : MMNode) (d' j' : Nat) (m' : MMNode),
        OccursAt 0 t d j m → OccursAt 0 t d' j' m' → d ≠ d' ∨ j ≠ j' →
        m.id ≠ m'.id) ∧
    (∀ (md : Str) (d : Nat) (m : Tree2) (d' : Nat) (m' : Tree2),
      AtDepth Tree2.children (parseMarkdown2 md) d m →
      AtDepth Tree2.children (parseMarkdown2 md) d' m' →
      normalizeId m.label ≠ normalizeId m'.label → m.id ≠ m'.id) := by
  constructor
  · intro md t hp d j m d' j' m' hm hm' hne heq
    unfold parseMarkdown1 at hp
    cases hb : (buildRoot md).children with
    | nil => rw [hb] at hp; cases hp
    | cons c cs =>
      rw [hb] at hp
      obtain rfl : convNode c 0 0 = t := Option.some_inj.mp hp
      obtain ⟨cm, rfl⟩ := occurs_conv hm
      obtain ⟨cm', rfl⟩ := occurs_conv hm'
      rw [convNode_id, convNode_id] at heq
      obtain ⟨hd, hj⟩ := mkId_inj heq
      rcases hne with h | h
      · omega
      · omega
  · intro md d m d' m' hm hm' hne heq
    rw [tree2_id_label md d m hm, tree2_id_label md d' m' hm'] at heq
    exact hne heq

theorem c5_amended_witness :
    (MMNode.mk "node-0-0".data "A".data 0 0
        [MMNode.mk "node-1-0".data "B".data 200 0 []]).id ≠
      (MMNode.mk "node-1-0".data "B".data 200 0 []).id ∧
    (Tree2.mk "a".data "A".data defaultColor none 250 (some 160)
        [Tree2.mk "b".data "B".data defaultColor none 500 (some 80) []]).id ≠
      (Tree2.mk "b".data "B".data defaultColor none 500 (some 80) []).id :=
  ⟨c5_amended.1 "# A\n## B".data
      (MMNode.mk "node-0-0".data "A".data 0 0 [MMNode.mk "node-1-0".data "B".data 200 0 []])
      rfl 0 0 _ 1 0 _ OccursAt.here (OccursAt.child OccursAt.here rfl)
      (Or.inl (by decide)),
   c5_amended.2 "# A\n## B".data 0 _ 1 _ AtDepth.zero
      (AtDepth.succ AtDepth.zero (List.mem_singleton_self _)) (by decide)⟩

/-! ## Claim C6 -/

/-- C6: whenever the second scheme establishes a root (so the returned tree
is not the input-independent fallback), every node of the output tree
carries `label`, `color` and `edgeLabel` verbatim from `parseLine` of some
heading line of the input; and `parseLine` extracts the color as the first
`[#RRGGBB]` tag (its character class `[A-Fa-f0-9]` covers both cases) with
default `'#212529'`, and the edge label as the capture of the trailing
parenthesised annotation, left unset (`none`, observably distinct from an
empty string) when no such annotation exists. -/
theorem c6_fields (md : Str) (hr : (runScheme2 md).root ≠ none) :
    (∀ (d : Nat) (m : Tree2), AtDepth Tree2.children (parseMarkdown2 md) d m →
      ∃ l, l ∈ linesOf2 md ∧ 1 ≤ countHashes l ∧
        m.label = (parseLine l).label ∧ m.color = (parseLine l).color ∧
        m.edgeLabel = (parseLine l).edgeLabel) ∧
    (∀ l : Str, (parseLine l).color = (findColor l).getD defaultColor ∧
      (parseLine l).edgeLabel = findEdge l) := by
  refine ⟨?_, fun l => ⟨rfl, rfl⟩⟩
  intro d m hd
  rw [parseMarkdown2_eq] at hd
  have inv := inv2_run md
  cases hroot : (runScheme2 md).root with
  | none => exact absurd hroot hr
  | some r =>
    rw [hroot] at hd
    simp only [] at hd
    obtain ⟨nr, hnr, -, hxr, -⟩ := inv.rootOf r hroot
    obtain ⟨j, nj, hin, hj, rfl, -⟩ := atDepth_buildTree inv.plt inv.px hnr hxr hd
    obtain ⟨l, hl, hh, -, hlab, hcol, hedge, -⟩ := inv.fieldsOf j nj hj
    refine ⟨l, hl, hh, ?_, ?_, ?_⟩ <;> rw [buildTree_eq hj]
    · exact hlab
    · exact hcol
    · exact hedge

theorem c6_fields_witness :
    ((runScheme2 "# A [#ff0000] (e)".data).root ≠ none) ∧
    (∃ l, l ∈ linesOf2 "# A [#ff0000] (e)".data ∧ 1 ≤ countHashes l ∧
      (parseMarkdown2 "# A [#ff0000] (e)".data).label = (parseLine l).label ∧
      (parseMarkdown2 "# A [#ff0000] (e)".data).color = (parseLine l).color ∧
      (parseMarkdown2 "# A [#ff0000] (e)".data).edgeLabel = (parseLine l).edgeLabel) :=
  ⟨by decide,
   (c6_fields "# A [#ff0000] (e)".data (by decide)).1 0 _ AtDepth.zero⟩

/-! ## Claim C10 -/

/-- C10: in the second scheme, a heading of level `L ≥ 2` processed while
no node is recorded at level `L − 1` is created with no parent (an orphan,
its `y` even being `NaN`), yet is still recorded as the last node at level
`L`; an orphan other than the root is unreachable, any node whose parent is
unreachable is unreachable, and so the orphan and its descendants are
absent from the returned tree — concretely, "# A\n### C\n#### E" returns
the root A alone (E attached to the orphan C, and both were dropped). -/
theorem c10_orphan :
    (∀ (ccbp : List (Str × Nat)) (s : S2) (line : Str),
      2 ≤ countHashes line → s.lastAt (countHashes line - 1) = none →
      (step2 ccbp s line).arena = s.arena ++ [mkNode2 line none none] ∧
      (step2 ccbp s line).lastAt (countHashes line) = some s.arena.length) ∧
    (∀ (arena : List Node2) (r j : Nat) (nj : Node2), arena[j]? = some nj →
      nj.parent = none → j ≠ r → ¬ InTree arena r j) ∧
    (∀ (arena : List Node2) (r j p : Nat),
      arena[j]?.bind Node2.parent = some p → j ≠ r → ¬ InTree arena r p →
      ¬ InTree arena r j) ∧
    parseMarkdown2 "# A\n### C\n#### E".data =
      Tree2.mk "a".data "A".data defaultColor none 250 (some 160) [] := by
  refine ⟨?_, ?_, ?_, by rfl⟩
  · intro ccbp s line h2 hnone
    rw [step2_deep _ _ _ h2, hnone]
    constructor
    · show s.arena ++ [mkNode2 line (yOf s none) none] = _
      have hy : yOf s none = none := by
        simp [yOf, childIdxOf, parentYOf, jsub]
      rw [hy]
    · simp
  · intro arena r j nj hj hp hne h
    cases h with
    | root => exact hne rfl
    | child hbind hin =>
      obtain ⟨nd, hj', hp'⟩ := bind_parent_elim hbind
      rw [hj] at hj'
      obtain rfl : nj = nd := Option.some_inj.mp hj'
      rw [hp] at hp'
      cases hp'
  · intro arena r j p hbind hne hp h
    cases h with
    | root => exact hne rfl
    | child hbind' hin =>
      rw [hbind] at hbind'
      obtain rfl : p = _ := Option.some_inj.mp hbind'
      exact hp hin

theorem c10_orphan_witness :
    ((step2 [] ⟨[], none, fun _ => none⟩ "## X".data).arena =
        [] ++ [mkNode2 "## X".data none none] ∧
      (step2 [] ⟨[], none, fun _ => none⟩ "## X".data).lastAt
        (countHashes "## X".data) = some ([] : List Node2).length) ∧
    ¬ InTree [mkNode2 "# A".data (some 160) none, mkNode2 "## X".data none none] 0 1 :=
  ⟨(c10_orphan.1 [] ⟨[], none, fun _ => none⟩ "## X".data (by decide) rfl),
   c10_orphan.2.1 [mkNode2 "# A".data (some 160) none, mkNode2 "## X".data none none]
     0 1 (mkNode2 "## X".data none none) (by rfl) rfl (by decide)⟩

/-! ## Claim C7 -/

/-- C7: in both schemes, no two direct children of any node of the output
tree share a `y` coordinate (scheme 1: `y = siblingIndex * 100`; scheme 2:
`y = parent.y - 80` for the first child and `parent.y + 80 * k` for the
`k`-th, all distinct); coordinates are a function of the input by
construction (claim C8 covers determinism of the whole pipeline). -/
theorem c7_sibling_y :
    (∀ (md : Str) (t : MMNode), parseMarkdown1 md = some t →
      ∀ (d : Nat) (m : MMNode) (k k' : Nat) (c c' : MMNode),
        AtDepth MMNode.children t d m →
        m.children[k]? = some c → m.children[k']? = some c' → k ≠ k' →
        c.y ≠ c'.y) ∧
    (∀ (md : Str) (d : Nat) (m : Tree2) (k k' : Nat) (c c' : Tree2),
      AtDepth Tree2.children (parseMarkdown2 md) d m →
      m.children[k]? = some c → m.children[k']? = some c' → k ≠ k' →
      c.y ≠ c'.y) := by
  constructor
  · intro md t hp d m k k' c c' hd hk hk' hne
    unfold parseMarkdown1 at hp
    cases hb : (buildRoot md).children with
    | nil => rw [hb] at hp; cases hp
    | cons c0 cs0 =>
      rw [hb] at hp
      obtain rfl : convNode c0 0 0 = t := Option.some_inj.mp hp
      obtain ⟨cm, j, rfl⟩ := atDepth_conv hd
      obtain ⟨lv, ct, cs⟩ := cm
      rw [convNode_children, convChildren_get] at hk hk'
      obtain ⟨a, -, ha⟩ := Option.map_eq_some'.mp hk
      obtain ⟨a', -, ha'⟩ := Option.map_eq_some'.mp hk'
      rw [← ha, ← ha', convNode_y, convNode_y]
      intro heq
      rw [Int.ofNat_eq_natCast, Int.ofNat_eq_natCast, Nat.cast_inj] at heq
      omega
  · intro md d m k k' c c' hd hk hk' hne
    rw [parseMarkdown2_eq] at hd
    have inv := inv2_run md
    cases hroot : (runScheme2 md).root with
    | none =>
      rw [hroot] at hd
      simp only [] at hd
      obtain ⟨rfl, rfl⟩ := atDepth_leaf (by rfl) hd
      simp only [fallback2, Tree2.children] at hk
      simp at hk
    | some r =>
      rw [hroot] at hd
      simp only [] at hd
      obtain ⟨nr, hnr, hrn, hxr, hyr⟩ := inv.rootOf r hroot
      obtain ⟨j, nj, hin, hj, rfl, -⟩ := atDepth_buildTree inv.plt inv.px hnr hxr hd
      have hch : (buildTree (runScheme2 md).arena j).children =
          (childIndices (runScheme2 md).arena j).map (buildTree (runScheme2 md).arena) := by
        rw [buildTree_eq hj]
        rfl
      rw [hch, List.getElem?_map] at hk hk'
      obtain ⟨jc, hjc, rfl⟩ := Option.map_eq_some'.mp hk
      obtain ⟨jc', hjc', rfl⟩ := Option.map_eq_some'.mp hk'
      obtain ⟨nj2, v, hj2, hyv⟩ := inTree_y_some inv.py hnr hyr hin
      rw [hj] at hj2
      obtain rfl : nj = nj2 := Option.some_inj.mp hj2
      obtain ⟨nc, hnc, hync⟩ := sibling_y inv.plt inv.py hj hjc
      obtain ⟨nc', hnc', hync'⟩ := sibling_y inv.plt inv.py hj hjc'
      rw [buildTree_eq hnc, buildTree_eq hnc']
      show nc.y ≠ nc'.y
      rw [hync, hync', hyv]
      by_cases h0 : k = 0
      · subst h0
        rw [if_pos rfl, if_neg (by omega)]
        show jsub (some v) 80 ≠ jadd (some v) (80 * Int.ofNat k')
        simp only [jsub, jadd, Option.some_inj, ne_eq]
        rw [Int.ofNat_eq_natCast]
        intro hcontra
        have hk'1 : 1 ≤ k' := by omega
        have : (1 : Int) ≤ (k' : Int) := by exact_mod_cast hk'1
        nlinarith
      · by_cases h0' : k' = 0
        · subst h0'
          rw [if_neg h0, if_pos rfl]
          show jadd (some v) (80 * Int.ofNat k) ≠ jsub (some v) 80
          simp only [jsub, jadd, Option.some_inj, ne_eq]
          rw [Int.ofNat_eq_natCast]
          intro hcontra
          have hk1 : 1 ≤ k := by omega
          have : (1 : Int) ≤ (k : Int) := by exact_mod_cast hk1
          nlinarith
        · rw [if_neg h0, if_neg h0']
          show jadd (some v) (80 * Int.ofNat k) ≠ jadd (some v) (80 * Int.ofNat k')
          simp only [jadd, Option.some_inj, ne_eq]
          rw [Int.ofNat_eq_natCast, Int.ofNat_eq_natCast]
          intro hcontra
          have : (k : Int) = (k' : Int) := by linarith
          exact hne (by exact_mod_cast this)

theorem c7_sibling_y_witness :
    ((MMNode.mk "node-1-0".data "B".data 200 0 []).y ≠
      (MMNode.mk "node-1-1".data "C".data 200 100 []).y) ∧
    ((Tree2.mk "b".data "B".data defaultColor none 500 (some 80) []).y ≠
      (Tree2.mk "c".data "C".data defaultColor none 500 (some 240) []).y) :=
  ⟨c7_sibling_y.1 "# A\n## B\n## C".data
      (MMNode.mk "node-0-0".data "A".data 0 0
        [MMNode.mk "node-1-0".data "B".data 200 0 [],
         MMNode.mk "node-1-1".data "C".data 200 100 []])
      rfl 0 _ 0 1 _ _ AtDepth.zero rfl rfl (by decide),
   c7_sibling_y.2 "# A\n## B\n## C".data 0 _ 0 1 _ _ AtDepth.zero rfl rfl (by decide)⟩

/-! ## Claim C4 -/

mutual

def countT2 : Tree2 → Nat
  | .mk _ _ _ _ _ _ cs => 1 + countT2L cs

def countT2L : List Tree2 → Nat
  | [] => 0
  | c :: rest => countT2 c + countT2L rest

end

/-- C4 counterexample: on "# A\n## B" both schemes return a two-node tree
whose root corresponds to the first heading line, so the number of
non-root nodes is 1 while the number of heading lines is 2 — the claimed
equality is off by one (the root's own heading line is not counted). -/
theorem c4_counterexample :
    parseMarkdown1 "# A\n## B".data =
      some (MMNode.mk "node-0-0".data "A".data 0 0
        [MMNode.mk "node-1-0".data "B".data 200 0 []]) ∧
    countMM (MMNode.mk "node-0-0".data "A".data 0 0
        [MMNode.mk "node-1-0".data "B".data 200 0 []]) - 1 = 1 ∧
    countT2 (parseMarkdown2 "# A\n## B".data) - 1 = 1 ∧
    headingCount "# A\n## B".data = 2 ∧ (1 : Nat) ≠ 2 :=
  ⟨by rfl, by rfl, by rfl, by rfl, by decide⟩

/-- C4 (amended): counting the root as well (the root node corresponds to
the first heading line), the number of nodes equals the number of heading
lines, for well-formed inputs.  Scheme 1: when every non-blank line is a
heading and every line after the first is strictly deeper than the first,
the output tree has exactly `headingCount` nodes.  Scheme 2: when the
heading levels are `1` followed by levels that are ≥ 2 and never jump by
more than one, exactly one arena node is created per heading line and
every one of them appears in the returned tree (none is silently
dropped). -/
theorem c4_amended :
    (∀ (md l0 : Str) (rest : List Str), nonblankLines md = l0 :: rest →
      1 ≤ countHashes l0 → (∀ l ∈ rest, countHashes l0 < countHashes l) →
      ∃ t, parseMarkdown1 md = some t ∧ countMM t = headingCount md) ∧
    (∀ (md : Str) (rest : List Nat),
      headingLevels (linesOf2 md) = 1 :: rest → Wf2 1 rest →
      (runScheme2 md).arena.length = (headingLevels (linesOf2 md)).length ∧
      ∃ r, (runScheme2 md).root = some r ∧
        ∀ j, j < (runScheme2 md).arena.length →
          ∃ d, AtDepth Tree2.children (parseMarkdown2 md)
            d (buildTree (runScheme2 md).arena j)) := by
  constructor
  · intro md l0 rest hlines h1 hdeep
    obtain ⟨nd, -, hparse, hsz⟩ :=
      stacked_parse1 md (Int.ofNat (countHashes l0)) (wf1_stacked md l0 rest hlines hdeep)
    refine ⟨convNode nd 0 0, hparse, ?_⟩
    rw [conv_size, hsz]
    unfold headingCount nonblankLines at *
    have hcongr : (splitLines md).filter (fun l => decide (1 ≤ countHashes l)) =
        (splitLines md).filter (fun l => !(trimChars l).isEmpty) := by
      apply List.filter_congr
      intro l hl
      by_cases hh : 1 ≤ countHashes l
      · rw [decide_eq_true hh, heading_nonblank hh]
        rfl
      · have hd0 : decide (1 ≤ countHashes l) = false := by
          simp [hh]
        rw [hd0]
        cases hb : (trimChars l).isEmpty with
        | true => rfl
        | false =>
          exfalso
          have hmem : l ∈ (splitLines md).filter (fun l => !(trimChars l).isEmpty) :=
            List.mem_filter.mpr ⟨hl, by rw [hb]; rfl⟩
          rw [hlines] at hmem
          rcases List.mem_cons.mp hmem with h | h
          · subst h; omega
          · have := hdeep l h; omega
    rw [hcongr, hlines]
  · intro md rest hh hwf
    constructor
    · show (List.foldl (step2 (firstPass (linesOf2 md))) ⟨[], none, fun _ => none⟩
        (linesOf2 md)).arena.length = _
      rw [run2_len]
      simp
    · obtain ⟨prev, r, hroot, hrlen, hall, -⟩ :=
        q2_entry (firstPass (linesOf2 md)) (linesOf2 md) rest hh hwf
      have hroot' : (runScheme2 md).root = some r := hroot
      have hrlen' : r < (runScheme2 md).arena.length := hrlen
      refine ⟨r, hroot', ?_⟩
      intro j hj
      have hin : InTree (runScheme2 md).arena r j := hall j hj
      have hatd := inTree_atDepth (inv2_run md).plt hrlen' hin
      have hpm : buildTree (runScheme2 md).arena r = parseMarkdown2 md := by
        rw [parseMarkdown2_eq, hroot']
      rwa [hpm] at hatd

theorem c4_amended_witness :
    (∃ t, parseMarkdown1 "# A\n## B\n### C".data = some t ∧
      countMM t = headingCount "# A\n## B\n### C".data) ∧
    ((runScheme2 "# A\n## B\n### C".data).arena.length =
      (headingLevels (linesOf2 "# A\n## B\n### C".data)).length ∧
     ∃ r, (runScheme2 "# A\n## B\n### C".data).root = some r ∧
       ∀ j, j < (runScheme2 "# A\n## B\n### C".data).arena.length →
         ∃ d, AtDepth Tree2.children (parseMarkdown2 "# A\n## B\n### C".data)
           d (buildTree (runScheme2 "# A\n## B\n### C".data).arena j)) :=
  ⟨c4_amended.1 "# A\n## B\n### C".data "# A".data ["## B".data, "### C".data]
      rfl (by decide) (by decide),
   c4_amended.2 "# A\n## B\n### C".data [2, 3] rfl (by simp [Wf2])⟩

end MindMap
